import Mathlib

/-!
Verification development for the SpecSmash schema-directed JSON generator
(specsmash.go).  The Go code is shallowly embedded: the rapid random source
is modelled as a tape of natural numbers consumed left to right, external
effects (uuid.NewString, time.Now) are modelled as explicit components of the
generator state, Go panics are modelled as values of an error type, and the
recursion of GenFromSchema is driven by an explicit fuel parameter (every
inter-generator call consumes one unit; running out of fuel is an error
distinct from every panic, so statements about produced values are
unaffected by it).  Machine integers are Int with the int64/int32 ranges
written out; float64 values are modelled as rationals, with math.Nextafter
modelled as a step of fixed positive size (only the direction and strictness
of the step matter for the properties below) and math.MaxFloat64 by its
exact value.  Go map iteration order (randomised at runtime) is modelled as
insertion order of an association list; no property below depends on it,
and the one claim about draw determinism is settled through the modelled
uuid entropy instead.
-/

namespace SpecSmash

/-- A JSON value, as carried through the generator (json.RawMessage bytes
are abstracted to a syntax tree; Go marshals int64 and float64 draws as
numbers, kept distinct here as int and num). -/
inductive JSON where
  | null : JSON
  | bool (b : Bool) : JSON
  | int (n : Int) : JSON
  | num (q : Rat) : JSON
  | str (s : String) : JSON
  | arr (elems : List JSON) : JSON
  | obj (fields : List (String × JSON)) : JSON

/-- The non-recursive fields of openapi3.Schema used by the generator. -/
structure SchemaFlat where
  type : Option (List String)
  nullable : Bool
  format : String
  enum : List JSON
  min : Option Rat
  max : Option Rat
  exclusiveMin : Bool
  exclusiveMax : Bool
  multipleOf : Option Rat
  minLength : Nat
  maxLength : Option Nat
  pattern : String
  minItems : Nat
  maxItems : Option Nat
  uniqueItems : Bool
  required : List String
  /-- AdditionalProperties.Has (three-state *bool). -/
  addPropsHas : Option Bool

/-- openapi3.Schema: the flat fields plus the recursive ones.  A nil
*SchemaRef or a SchemaRef with nil Value is modelled as none; Properties is
a map modelled as an association list. -/
inductive Schema where
  | mk (flat : SchemaFlat)
       (items : Option Schema)
       (properties : List (String × Option Schema))
       (addPropsSchema : Option Schema)
       (allOf : List (Option Schema))
       (anyOf : List (Option Schema))
       (oneOf : List (Option Schema)) : Schema

def Schema.flat : Schema → SchemaFlat
  | .mk f _ _ _ _ _ _ => f

def Schema.items : Schema → Option Schema
  | .mk _ i _ _ _ _ _ => i

def Schema.properties : Schema → List (String × Option Schema)
  | .mk _ _ p _ _ _ _ => p

def Schema.addPropsSchema : Schema → Option Schema
  | .mk _ _ _ a _ _ _ => a

def Schema.allOf : Schema → List (Option Schema)
  | .mk _ _ _ _ a _ _ => a

def Schema.anyOf : Schema → List (Option Schema)
  | .mk _ _ _ _ _ a _ => a

def Schema.oneOf : Schema → List (Option Schema)
  | .mk _ _ _ _ _ _ o => o

def Schema.type (s : Schema) : Option (List String) := s.flat.type
def Schema.nullable (s : Schema) : Bool := s.flat.nullable
def Schema.format (s : Schema) : String := s.flat.format
def Schema.enum (s : Schema) : List JSON := s.flat.enum
def Schema.min (s : Schema) : Option Rat := s.flat.min
def Schema.max (s : Schema) : Option Rat := s.flat.max
def Schema.exclusiveMin (s : Schema) : Bool := s.flat.exclusiveMin
def Schema.exclusiveMax (s : Schema) : Bool := s.flat.exclusiveMax
def Schema.multipleOf (s : Schema) : Option Rat := s.flat.multipleOf
def Schema.minLength (s : Schema) : Nat := s.flat.minLength
def Schema.maxLength (s : Schema) : Option Nat := s.flat.maxLength
def Schema.pattern (s : Schema) : String := s.flat.pattern
def Schema.minItems (s : Schema) : Nat := s.flat.minItems
def Schema.maxItems (s : Schema) : Option Nat := s.flat.maxItems
def Schema.uniqueItems (s : Schema) : Bool := s.flat.uniqueItems
def Schema.required (s : Schema) : List String := s.flat.required
def Schema.addPropsHas (s : Schema) : Option Bool := s.flat.addPropsHas

/-- The zero openapi3.Schema value (all fields at their Go zero value). -/
def emptyFlat : SchemaFlat :=
  { type := none, nullable := false, format := "", enum := []
    min := none, max := none, exclusiveMin := false, exclusiveMax := false
    multipleOf := none, minLength := 0, maxLength := none, pattern := ""
    minItems := 0, maxItems := none, uniqueItems := false
    required := [], addPropsHas := none }

def emptySchema : Schema := .mk emptyFlat none [] none [] [] []

/-- The stub schema openapi3.Schema{Type: getType(t)} used by genAny. -/
def typeStub (t : String) : Schema :=
  .mk { emptyFlat with type := some [t] } none [] none [] [] []

/-- GenerationOptions (specsmash.go lines 23-27). -/
structure GenerationOptions where
  depth : Int
  MaxDepth : Int
  AdditionalPropertiesMax : Int

/-- NewGenerationOptions (specsmash.go lines 620-626). -/
def NewGenerationOptions : GenerationOptions :=
  { depth := 0, MaxDepth := 10, AdditionalPropertiesMax := 10 }

/-- The fresh child options &GenerationOptions{depth: opts.depth + 1}
constructed at every recursive descent (array items, object property
values, anyOf branches, oneOf branches); the unset Go fields MaxDepth and
AdditionalPropertiesMax are the zero value 0. -/
def childOpts (opts : GenerationOptions) : GenerationOptions :=
  { depth := opts.depth + 1, MaxDepth := 0, AdditionalPropertiesMax := 0 }

/-- Go panics and rapid assertion failures reached by the generator. -/
inductive GenErr where
  /-- rapid range generators reject an inverted range. -/
  | invalidRange : GenErr
  /-- rapid.SampledFrom / rapid.OneOf over an empty collection. -/
  | emptySample : GenErr
  /-- panic "multipleOf is too large for the given range" in genInteger. -/
  | multipleOfTooLarge : GenErr
  /-- panic "multiple types not supported in this implementation". -/
  | multipleTypes : GenErr
  /-- indexing typesSlice[0] on an empty type list. -/
  | emptyTypes : GenErr
  /-- panic "mergeSchema requires object type". -/
  | mergeNonObject : GenErr
  /-- panic "duplicate property ... found during schema merge". -/
  | duplicateProp : GenErr
  /-- Go runtime panic: integer division by zero (int64 conversion of a
  nonzero multipleOf below 1 yields 0). -/
  | divByZero : GenErr
  /-- rapid gives up drawing enough distinct elements. -/
  | distinctRetry : GenErr
  /-- artefact of the embedding: recursion fuel exhausted. -/
  | outOfFuel : GenErr
deriving DecidableEq

/-- The generator state: the answers of the random source (a tape of
naturals, one per elementary draw, reading 0 past its end), plus the
external effects consulted by genString: the uuid entropy stream and the
current clock readings. -/
structure GState where
  tape : List Nat
  entropy : List String
  now : String
  today : String

/-- A generator: a state transformer that may fail (Go panic). -/
def GenM (α : Type) : Type := GState → Except GenErr (α × GState)

def pureG {α : Type} (a : α) : GenM α := fun st => .ok (a, st)

def bindG {α β : Type} (x : GenM α) (f : α → GenM β) : GenM β := fun st =>
  match x st with
  | .error e => .error e
  | .ok (a, st1) => f a st1

def throwG {α : Type} (e : GenErr) : GenM α := fun _ => .error e

instance : Monad GenM where
  pure := pureG
  bind := bindG

/-- Lift a pure fallible computation (a Go code path that only can panic)
into the generator. -/
def ofExcept {α : Type} (x : Except GenErr α) : GenM α := fun st =>
  match x with
  | .error e => .error e
  | .ok a => .ok (a, st)

/-- Run a generator and keep only the produced value. -/
def evalG {α : Type} (g : GenM α) (st : GState) : Except GenErr α :=
  match g st with
  | .error e => .error e
  | .ok (a, _) => .ok a

/-- One elementary answer of the random source. -/
def nextNat : GenM Nat := fun st =>
  .ok (st.tape.headD 0, { st with tape := st.tape.tail })

/-- rapid.IntRange / rapid.Int64Range: a uniform draw from [lo, hi]
(modelled as lo plus the tape answer reduced mod the size); an inverted
range is a rapid assertion failure. -/
def intRange (lo hi : Int) : GenM Int :=
  if hi < lo then throwG .invalidRange
  else
    bindG nextNat fun n =>
    pureG (lo + ((n % (hi - lo + 1).toNat : Nat) : Int))

/-- rapid.SampledFrom: a uniform element of a nonempty list. -/
def sampledFrom {α : Type} (xs : List α) : GenM α :=
  match xs with
  | [] => throwG .emptySample
  | x :: rest =>
    bindG nextNat fun n =>
    pureG ((x :: rest).getD (n % (rest.length + 1)) x)

/-- rapid.OneOf: pick one of the given generators and draw from it. -/
def oneOfG {α : Type} (gens : List (GenM α)) : GenM α :=
  match gens with
  | [] => throwG .emptySample
  | g :: rest =>
    bindG nextNat fun n =>
    (g :: rest).getD (n % (rest.length + 1)) g

/-- rapid.Bool. -/
def boolG : GenM Bool :=
  bindG nextNat fun n => pureG (n % 2 == 1)

/-- math.MaxFloat64, exactly. -/
def MaxFloat64 : Rat := 2 ^ 1024 - 2 ^ 971

def MinInt64 : Int := -(2 ^ 63)
def MaxInt64 : Int := 2 ^ 63 - 1
def MinInt32 : Int := -(2 ^ 31)
def MaxInt32 : Int := 2 ^ 31 - 1

/-- The positive step by which math.Nextafter moves a float64 (the true
step width varies with the argument; only its sign and strict positivity
are relevant to the generator bounds). -/
def floatStep : Rat := 1 / 2 ^ 1074

/-- math.Nextafter(m, +Inf). -/
def nextafterUp (q : Rat) : Rat := q + floatStep

/-- math.Nextafter(m, -Inf). -/
def nextafterDown (q : Rat) : Rat := q - floatStep

/-- Go conversion int64(f) of a float64: truncation toward zero. -/
def ratTrunc (q : Rat) : Int := q.num.tdiv (q.den : Int)

/-- rapid.Float64Range: a draw from [lo, hi] (the tape answer selects one
of 97 evenly spaced points, including both endpoints); an inverted range is
a rapid assertion failure. -/
def float64Range (lo hi : Rat) : GenM Rat :=
  if hi < lo then throwG .invalidRange
  else
    bindG nextNat fun n =>
    pureG (lo + (hi - lo) * ((n % 97 : Nat) : Rat) / 96)

/-- A deterministic character, standing in for the (unconstrained)
alphabet choices of rapid string generators. -/
def charOfNat (n : Nat) : Char := Char.ofNat (97 + n % 26)

def stringOfNat (len seed : Nat) : String :=
  String.mk ((List.range len).map (fun i => charOfNat (seed + i)))

/-- rapid.StringN(minLen, maxLen, -1): a string with length in
[minLen, maxLen], a negative maxLen meaning the rapid default upper bound
(modelled as minLen + 20; no claim depends on the constant). -/
def stringN (minLen maxLen : Int) : GenM String :=
  let hi : Int := if maxLen < 0 then minLen + 20 else maxLen
  if hi < minLen then throwG .invalidRange
  else
    bindG (intRange minLen hi) fun len =>
    bindG nextNat fun seed =>
    pureG (stringOfNat len.toNat seed)

/-- rapid.StringMatching(pattern): regex-directed string generation,
abstracted to a string derived from the pattern and one tape answer (the
claims below depend only on it being an ordinary, always-successful string
draw). -/
def stringMatching (pattern : String) : GenM String :=
  bindG nextNat fun seed =>
  pureG (pattern ++ stringOfNat (1 + seed % 5) seed)

/-- The base64-encoded random octet sequence of the byte and binary
formats, abstracted like stringMatching. -/
def base64Bytes : GenM String :=
  bindG nextNat fun seed =>
  pureG (stringOfNat (seed % 8) seed)

/-- uuid.NewString(): consumes external entropy, not the random source. -/
def uuidNewString : GenM String := fun st =>
  .ok (st.entropy.headD "00000000-0000-0000-0000-000000000000",
       { st with entropy := st.entropy.tail })

/-- time.Now().UTC().Format(time.RFC3339): reads the clock. -/
def timeNowRFC3339 : GenM String := fun st => .ok (st.now, st)

/-- time.Now().UTC().Format("2006-01-02"): reads the clock. -/
def timeNowDate : GenM String := fun st => .ok (st.today, st)

/-- genNull (specsmash.go lines 36-38). -/
def genNull : GenM JSON := pureG JSON.null

/-- wrapNullable (specsmash.go lines 41-48). -/
def wrapNullable (s : Schema) (g : GenM JSON) : GenM JSON :=
  if s.nullable then oneOfG [g, genNull] else g

/-- The email regex literal of genString. -/
def emailPattern : String :=
  "[a-zA-Z0-9._%+\\-]+@[a-zA-Z0-9.\\-]+\\.[a-zA-Z]\x7b2,\x7d"

/-- The hostname regex literal of genString. -/
def hostnamePattern : String := "[a-zA-Z0-9\\-\\.]\x7b1,253\x7d"

/-- The ipv4 regex literal of genString. -/
def ipv4Pattern : String := "\\d\x7b1,3\x7d(\\.\\d\x7b1,3\x7d)\x7b3\x7d"

/-- The ipv6 regex literal of genString. -/
def ipv6Pattern : String :=
  "([0-9a-fA-F]\x7b1,4\x7d:)\x7b7\x7d[0-9a-fA-F]\x7b1,4\x7d"

/-- The uri regex literal of genString. -/
def uriPattern : String := "https?://[^\\s]+"

/-- The uri-reference regex literal of genString (one quote character of
the character class is left out of the literal; stringMatching does not
interpret the pattern). -/
def uriReferencePattern : String := "[-A-Za-z0-9._~:/?#@!$&()*+,;=%]+"

/-- The inner string draw of genString (specsmash.go lines 60-105):
special formats first, then pattern, then a plain length-bounded string. -/
def stringGen (s : Schema) : GenM String :=
  match s.format with
  | "uuid" => uuidNewString
  | "date-time" => timeNowRFC3339
  | "date" => timeNowDate
  | "email" => stringMatching emailPattern
  | "hostname" => stringMatching hostnamePattern
  | "ipv4" => stringMatching ipv4Pattern
  | "ipv6" => stringMatching ipv6Pattern
  | "uri" => stringMatching uriPattern
  | "uri-reference" => stringMatching uriReferencePattern
  | "byte" => base64Bytes
  | "binary" => base64Bytes
  | _ =>
    if s.pattern ≠ "" then stringMatching s.pattern
    else
      stringN (s.minLength : Int)
        (match s.maxLength with | none => -1 | some m => (m : Int))

/-- genString (specsmash.go lines 58-121): a nonempty enum overrides
everything; otherwise the drawn string is marshalled and passed through
wrapNullable. -/
def genString (s : Schema) : GenM JSON :=
  if 0 < s.enum.length then sampledFrom s.enum
  else
    bindG (stringGen s) fun str =>
    wrapNullable s (pureG (JSON.str str))

/-- The effective integer lower bound of genInteger (specsmash.go lines
125-151): int64 conversion of the minimum, the exclusive bump, and the
int32 format clamp. -/
def intLowerBound (s : Schema) : Int :=
  let base : Int :=
    match s.min with
    | some m => if s.exclusiveMin then ratTrunc m + 1 else ratTrunc m
    | none => MinInt64
  if s.format = "int32" ∧ base < MinInt32 then MinInt32 else base

/-- The effective integer upper bound of genInteger. -/
def intUpperBound (s : Schema) : Int :=
  let base : Int :=
    match s.max with
    | some m => if s.exclusiveMax then ratTrunc m - 1 else ratTrunc m
    | none => MaxInt64
  if s.format = "int32" ∧ MaxInt32 < base then MaxInt32 else base

/-- genInteger (specsmash.go lines 123-181).  With multipleOf set and
nonzero, the quotient range is computed with Go (truncating) int64
division and an empty quotient range panics at once; a multipleOf whose
int64 conversion is zero is a division-by-zero panic; the enum override
and the nullable wrapper apply after that straight-line code. -/
def genInteger (s : Schema) : GenM JSON :=
  let minL := intLowerBound s
  let maxL := intUpperBound s
  let finish : GenM JSON → GenM JSON := fun base =>
    if 0 < s.enum.length then sampledFrom s.enum
    else wrapNullable s base
  let plain := bindG (intRange minL maxL) fun v => pureG (JSON.int v)
  match s.multipleOf with
  | some mo =>
    if mo ≠ 0 then
      let mult := ratTrunc mo
      if mult = 0 then throwG .divByZero
      else
        let highest := maxL.tdiv mult
        let lowest := minL.tdiv mult
        if highest < lowest then throwG .multipleOfTooLarge
        else finish (bindG (intRange lowest highest) fun k => pureG (JSON.int (k * mult)))
    else finish plain
  | none => finish plain

/-- The effective float64 lower bound of genNumber (specsmash.go lines
185-200): an exclusive minimum is advanced one step toward the interior. -/
def numLowerBound (s : Schema) : Rat :=
  match s.min with
  | some m => if s.exclusiveMin then nextafterUp m else m
  | none => -MaxFloat64

/-- The effective float64 upper bound of genNumber. -/
def numUpperBound (s : Schema) : Rat :=
  match s.max with
  | some m => if s.exclusiveMax then nextafterDown m else m
  | none => MaxFloat64

/-- genNumber (specsmash.go lines 183-244).  With multipleOf set and
nonzero, the range is clamped to [-2000000, 20000000], divided through by
the multiplier when its absolute value exceeds 1, and an integer
multiplier is drawn and scaled; that branch returns directly, skipping
both the enum override and the nullable wrapper. -/
def genNumber (s : Schema) : GenM JSON :=
  let minimum := numLowerBound s
  let maximum := numUpperBound s
  let finish : GenM JSON → GenM JSON := fun base =>
    if 0 < s.enum.length then sampledFrom s.enum
    else wrapNullable s base
  let baseGen := bindG (float64Range minimum maximum) fun v => pureG (JSON.num v)
  match s.multipleOf with
  | some mo =>
    if mo ≠ 0 then
      let mult := mo
      let minimum2 := max minimum (-2000000)
      let maximum2 := min maximum 20000000
      let minimum3 := if 1 < |mult| then minimum2 / mult else minimum2
      let maximum3 := if 1 < |mult| then maximum2 / mult else maximum2
      bindG (intRange (ratTrunc minimum3) (ratTrunc maximum3)) fun multiplier =>
      pureG (JSON.num ((multiplier : Rat) * mult))
    else finish baseGen
  | none => finish baseGen

/-- genBoolean (specsmash.go lines 246-258). -/
def genBoolean (s : Schema) : GenM JSON :=
  if 0 < s.enum.length then sampledFrom s.enum
  else wrapNullable s (bindG boolG fun b => pureG (JSON.bool b))

/-- contains (specsmash.go lines 369-376). -/
def contains (list : List String) (s : String) : Bool :=
  list.any (fun v => v == s)

/-- Assignment m[k] = v on a Go map modelled as an association list with
unique keys: replace the entry of the key when present, append otherwise. -/
def setKey {α : Type} : List (String × α) → String → α → List (String × α)
  | [], k, v => [(k, v)]
  | p :: rest, k, v => if p.1 = k then (k, v) :: rest else p :: setKey rest k v

/-- Draw a fixed number of elements. -/
def listOfLen {α : Type} (g : GenM α) : Nat → GenM (List α)
  | 0 => pureG []
  | n + 1 =>
    bindG g fun x =>
    bindG (listOfLen g n) fun xs =>
    pureG (x :: xs)

/-- rapid.SliceOfN: draw a length in [minLen, maxLen] (negative maxLen for
the rapid default bound), then that many elements. -/
def sliceOfN {α : Type} (g : GenM α) (minLen maxLen : Int) : GenM (List α) :=
  let hi : Int := if maxLen < 0 then minLen + 10 else maxLen
  bindG (intRange minLen hi) fun n =>
  listOfLen g n.toNat

/-- The collection loop of rapid.SliceOfNDistinct: draw elements, skip
those whose key was already seen, and give up (a rapid failure) when the
retry budget runs out before the target count is reached. -/
def distinctLoop {α β : Type} [BEq β] (g : GenM α) (key : α → β)
    (target : Nat) : Nat → List α → GenM (List α)
  | 0, acc =>
    if target ≤ acc.length then pureG acc.reverse else throwG .distinctRetry
  | budget + 1, acc =>
    if target ≤ acc.length then pureG acc.reverse
    else
      bindG g fun x =>
      if (acc.map key).contains (key x) then distinctLoop g key target budget acc
      else distinctLoop g key target budget (x :: acc)

/-- rapid.SliceOfNDistinct. -/
def sliceOfNDistinct {α β : Type} [BEq β] (g : GenM α) (minLen maxLen : Int)
    (key : α → β) : GenM (List α) :=
  let hi : Int := if maxLen < 0 then minLen + 10 else maxLen
  bindG (intRange minLen hi) fun n =>
  distinctLoop g key n.toNat (n.toNat * 10 + 100) []

mutual

/-- The json.RawMessage text of a value, used by genArray as the
deduplication key of unique items (Go: string(e)). -/
def JSON.render : JSON → String
  | .null => "null"
  | .bool b => cond b "true" "false"
  | .int n => toString n
  | .num q => toString q.num ++ "/" ++ toString q.den
  | .str s => "\"" ++ s ++ "\""
  | .arr xs => "[" ++ renderElems xs ++ "]"
  | .obj fs => "\x7b" ++ renderFields fs ++ "\x7d"

def renderElems : List JSON → String
  | [] => ""
  | [x] => JSON.render x
  | x :: y :: rest => JSON.render x ++ "," ++ renderElems (y :: rest)

def renderFields : List (String × JSON) → String
  | [] => ""
  | [(k, v)] => "\"" ++ k ++ "\":" ++ JSON.render v
  | (k, v) :: p :: rest =>
    "\"" ++ k ++ "\":" ++ JSON.render v ++ "," ++ renderFields (p :: rest)

end

/-- json.Unmarshal of a raw value into map[string]json.RawMessage: it
succeeds on an object, and also on the literal null (the map is set to
nil, i.e. it gets no entries); it fails on every other value. -/
def unmarshalMap : JSON → Option (List (String × JSON))
  | .obj fields => some fields
  | .null => some []
  | _ => none

/-- Merge the entries of a submap into an accumulated map, later wins. -/
def mergeMap (m : List (String × JSON)) :
    List (String × JSON) → List (String × JSON)
  | [] => m
  | (k, v) :: rest => mergeMap (setKey m k v) rest

/-- The object-type guard of mergeSchema (specsmash.go lines 421-433): a
schema whose type list is nonempty and does not start with object is a
panic. -/
def checkObjectType (t : Option (List String)) : Except GenErr Unit :=
  match t with
  | some (t0 :: _) => if t0 = "object" then .ok () else .error .mergeNonObject
  | _ => .ok ()

/-- The property merge of mergeSchema (specsmash.go lines 450-460): add
the sub-schema properties to the base map, a name already present is a
panic. -/
def mergeProps (base : List (String × Option Schema)) :
    List (String × Option Schema) → Except GenErr (List (String × Option Schema))
  | [] => .ok base
  | (name, v) :: rest =>
    if base.any (fun p => p.1 == name) then .error .duplicateProp
    else mergeProps (base ++ [(name, v)]) rest

/-- Rebuild a schema with the fields mergeSchema assigns (Required,
Properties, AdditionalProperties); every other field of the base is kept. -/
def Schema.withMerged (s : Schema) (required : List String)
    (properties : List (String × Option Schema)) (has : Option Bool)
    (apSchema : Option Schema) : Schema :=
  match s with
  | .mk f items _ _ allOf anyOf oneOf =>
    .mk { f with required := required, addPropsHas := has }
      items properties apSchema allOf anyOf oneOf

/-- mergeSchema (specsmash.go lines 414-507).  A nil sub reference (or nil
value) leaves the base unchanged; the iteration order of the Go required
set is modelled as first-occurrence order. -/
def mergeSchema : Schema → Option Schema → Except GenErr Schema
  | schema, none => .ok schema
  | schema, some (.mk subFlat subItems subProps subAdd subAllOf subAnyOf subOneOf) => do
    let subSchema : Schema := .mk subFlat subItems subProps subAdd subAllOf subAnyOf subOneOf
    let _ ← checkObjectType schema.type
    let _ ← checkObjectType subSchema.type
    let mergedRequired := (schema.required ++ subSchema.required).eraseDups
    let mergedProps ← mergeProps schema.properties subProps
    let baseHas := schema.addPropsHas
    let baseAdd := schema.addPropsSchema
    let subHas := subFlat.addPropsHas
    let merged ←
      if baseHas = some false ∨ subHas = some false then
        .ok ((some false : Option Bool), (none : Option Schema))
      else if baseHas = some true ∧ subHas = some true then
        .ok (some true, none)
      else if baseHas = some true ∧ subAdd.isSome then
        .ok (some true, subAdd)
      else if subHas = some true ∧ baseAdd.isSome then
        .ok (some true, baseAdd)
      else
        match baseAdd, subAdd with
        | some baseS, some subS => do
          let mergedAdditional ← mergeSchema baseS (some subS)
          .ok (some true, some mergedAdditional)
        | some baseS, none => .ok (some true, some baseS)
        | none, some subS => .ok (some true, some subS)
        | none, none => .ok (baseHas, baseAdd)
    .ok (schema.withMerged mergedRequired mergedProps merged.1 merged.2)

/-- The generator procedures of specsmash.go that recurse into
GenFromSchema, gathered as one fuel-indexed function; each constructor
names the Go function its runCall case embeds. -/
inductive Call where
  | fromSchema (opts : GenerationOptions) (s : Option Schema) : Call
  | array (opts : GenerationOptions) (s : Schema) : Call
  | object (opts : GenerationOptions) (s : Schema) : Call
  | anyGen (opts : GenerationOptions) : Call
  | allOfCall (opts : GenerationOptions) (s : Schema) : Call
  | anyOfCall (opts : GenerationOptions) (s : Schema) : Call
  | oneOfCall (opts : GenerationOptions) (s : Schema) : Call

/-- The property-value loop of genObject (specsmash.go lines 355-363):
generate a value for every chosen (key, schema) pair.  The Go map
iteration order is modelled as insertion order. -/
def propsLoop (gen : Option Schema → GenM JSON) :
    List (String × Option Schema) → List (String × JSON) → GenM (List (String × JSON))
  | [], acc => pureG acc.reverse
  | (k, ps) :: rest, acc =>
    bindG (gen ps) fun v =>
    propsLoop gen rest ((k, v) :: acc)

/-- The ad-hoc additional-key loop of genObject (specsmash.go lines
320-325): numExtras random keys, each mapped to the
additional-properties schema. -/
def extrasLoop (apSchema : Option Schema) :
    Nat → List (String × Option Schema) → GenM (List (String × Option Schema))
  | 0, acc => pureG acc
  | n + 1, acc =>
    bindG (stringN 20 30) fun extraKey =>
    extrasLoop apSchema n (setKey acc extraKey apSchema)

/-- The merge loop of handleAnyOf (specsmash.go lines 537-553): draw each
selected branch in order; a value that unmarshals as a map is merged
(later wins), any other value is returned at once. -/
def anyOfMergeLoop (gen : Nat → GenM JSON) :
    List Nat → List (String × JSON) → GenM JSON
  | [], merged => pureG (JSON.obj merged)
  | idx :: rest, merged =>
    bindG (gen idx) fun val =>
    match unmarshalMap val with
    | some submap => anyOfMergeLoop gen rest (mergeMap merged submap)
    | none => pureG val

/-- The recursive generator engine.  Fuel only bounds the call depth of
the embedding; every Go behaviour (values and panics) is reached at some
fuel, and no value is produced when fuel runs out. -/
def runCall : Nat → Call → GenM JSON
  | 0, _ => throwG .outOfFuel
  | fuel + 1, c =>
    match c with
    | .fromSchema opts s =>
      -- GenFromSchema (specsmash.go lines 572-617)
      match s with
      | none => runCall fuel (.anyGen opts)
      | some sc =>
        if 0 < sc.allOf.length then runCall fuel (.allOfCall opts sc)
        else if 0 < sc.anyOf.length then runCall fuel (.anyOfCall opts sc)
        else if 0 < sc.oneOf.length then runCall fuel (.oneOfCall opts sc)
        else
          match sc.type with
          | none => runCall fuel (.anyGen opts)
          | some ts =>
            if 1 < ts.length then throwG .multipleTypes
            else
              match ts with
              | [] => throwG .emptyTypes
              | t :: _ =>
                if t = "string" then genString sc
                else if t = "integer" then genInteger sc
                else if t = "number" then genNumber sc
                else if t = "boolean" then genBoolean sc
                else if t = "array" then runCall fuel (.array opts sc)
                else if t = "object" then runCall fuel (.object opts sc)
                else runCall fuel (.anyGen opts)
    | .array opts sc =>
      -- genArray (specsmash.go lines 262-291); both item branches build a
      -- child options record carrying only depth+1
      let itemGen := runCall fuel (.fromSchema (childOpts opts) sc.items)
      let minLen : Int := (sc.minItems : Int)
      let maxLen : Int := match sc.maxItems with | none => -1 | some m => (m : Int)
      let arrGen :=
        if sc.uniqueItems then sliceOfNDistinct itemGen minLen maxLen JSON.render
        else sliceOfN itemGen minLen maxLen
      wrapNullable sc (bindG arrGen fun arr => pureG (JSON.arr arr))
    | .object opts sc =>
      -- genObject (specsmash.go lines 295-367)
      let requiredPropsStrings :=
        (sc.properties.filter (fun p => contains sc.required p.1)).map Prod.fst
      let optionalPropStrings :=
        (sc.properties.filter (fun p => !(contains sc.required p.1))).map Prod.fst
      bindG
        (if sc.addPropsHas = some false then pureG []
         else
           bindG (intRange 0 opts.AdditionalPropertiesMax) fun numExtras =>
           extrasLoop sc.addPropsSchema numExtras.toNat [])
        fun allProps1 =>
      bindG
        (if 0 < optionalPropStrings.length then
           bindG
             (sliceOfNDistinct (sampledFrom optionalPropStrings) 0
               (optionalPropStrings.length : Int) (fun x => x))
             fun optionalSampledKeys =>
           pureG (optionalSampledKeys.foldl
             (fun m name => setKey m name ((List.lookup name sc.properties).getD none))
             allProps1)
         else pureG allProps1)
        fun allProps2 =>
      let allProps := requiredPropsStrings.foldl
        (fun m name => setKey m name ((List.lookup name sc.properties).getD none))
        allProps2
      if allProps.length = 0 then pureG (JSON.obj [])
      else
        bindG (propsLoop (fun ps => runCall fuel (.fromSchema (childOpts opts) ps)) allProps [])
          fun fields =>
        pureG (JSON.obj fields)
    | .anyGen opts =>
      -- genAny (specsmash.go lines 380-398)
      if opts.MaxDepth ≤ opts.depth then genString (typeStub "string")
      else
        oneOfG
          [ genString (typeStub "string")
          , genInteger (typeStub "integer")
          , genNumber (typeStub "number")
          , genBoolean (typeStub "boolean")
          , runCall fuel (.array opts (typeStub "array"))
          , runCall fuel (.object opts (typeStub "object"))
          , genNull ]
    | .allOfCall opts sc =>
      -- handleAllOf (specsmash.go lines 402-412)
      bindG (ofExcept (sc.allOf.foldlM mergeSchema emptySchema)) fun merged =>
      runCall fuel (.object opts merged)
    | .anyOfCall opts sc =>
      -- handleAnyOf (specsmash.go lines 509-555)
      let numSchemas := sc.anyOf.length
      bindG (intRange 1 (numSchemas : Int)) fun numToSatisfy =>
      let indices := List.range numSchemas
      bindG (sliceOfNDistinct (sampledFrom indices) numToSatisfy numToSatisfy (fun i => i))
        fun selectedIndices =>
      match selectedIndices with
      | [i] => runCall fuel (.fromSchema (childOpts opts) (sc.anyOf.getD i none))
      | _ =>
        anyOfMergeLoop
          (fun idx => runCall fuel (.fromSchema (childOpts opts) (sc.anyOf.getD idx none)))
          selectedIndices []
    | .oneOfCall opts sc =>
      -- handleOneOf (specsmash.go lines 557-568)
      oneOfG (sc.oneOf.map (fun sub => runCall fuel (.fromSchema (childOpts opts) sub)))

/-- GenFromSchema (specsmash.go lines 572-617), fuel-indexed. -/
def GenFromSchema (opts : GenerationOptions) (fuel : Nat) (s : Option Schema) : GenM JSON :=
  runCall fuel (.fromSchema opts s)

/-- genArray (specsmash.go lines 262-291), fuel-indexed. -/
def genArray (opts : GenerationOptions) (fuel : Nat) (s : Schema) : GenM JSON :=
  runCall fuel (.array opts s)

/-- genObject (specsmash.go lines 295-367), fuel-indexed. -/
def genObject (opts : GenerationOptions) (fuel : Nat) (s : Schema) : GenM JSON :=
  runCall fuel (.object opts s)

/-- genAny (specsmash.go lines 380-398), fuel-indexed. -/
def genAny (opts : GenerationOptions) (fuel : Nat) : GenM JSON :=
  runCall fuel (.anyGen opts)

/-- handleAllOf (specsmash.go lines 402-412), fuel-indexed. -/
def handleAllOf (opts : GenerationOptions) (fuel : Nat) (s : Schema) : GenM JSON :=
  runCall fuel (.allOfCall opts s)

/-- handleAnyOf (specsmash.go lines 509-555), fuel-indexed. -/
def handleAnyOf (opts : GenerationOptions) (fuel : Nat) (s : Schema) : GenM JSON :=
  runCall fuel (.anyOfCall opts s)

/-- handleOneOf (specsmash.go lines 557-568), fuel-indexed. -/
def handleOneOf (opts : GenerationOptions) (fuel : Nat) (s : Schema) : GenM JSON :=
  runCall fuel (.oneOfCall opts s)

/-! ### Run lemmas for the generator monad -/

theorem pureG_run {α : Type} (a : α) (st : GState) : pureG a st = .ok (a, st) := rfl

theorem throwG_run {α : Type} (e : GenErr) (st : GState) :
    (throwG e : GenM α) st = .error e := rfl

theorem bindG_eq_ok {α β : Type} {x : GenM α} {f : α → GenM β} {st : GState}
    {r : β × GState} :
    bindG x f st = .ok r ↔ ∃ a st1, x st = .ok (a, st1) ∧ f a st1 = .ok r := by
  unfold bindG
  cases hx : x st with
  | error e => simp [hx]
  | ok p =>
    obtain ⟨a, st1⟩ := p
    simp only [hx, Except.ok.injEq, Prod.mk.injEq]
    constructor
    · intro h; exact ⟨a, st1, ⟨rfl, rfl⟩, h⟩
    · rintro ⟨a2, st2, ⟨rfl, rfl⟩, h⟩; exact h

theorem evalG_eq_ok {α : Type} {g : GenM α} {st : GState} {a : α} :
    evalG g st = .ok a ↔ ∃ st1, g st = .ok (a, st1) := by
  unfold evalG
  cases hg : g st with
  | error e => simp [hg]
  | ok p =>
    obtain ⟨b, st1⟩ := p
    simp [hg, eq_comm]

theorem evalG_eq_error {α : Type} {g : GenM α} {st : GState} {e : GenErr} :
    evalG g st = .error e ↔ g st = .error e := by
  unfold evalG
  cases hg : g st with
  | error e2 => simp [hg]
  | ok p => simp [hg]

/-- The default-passing list index always lands in a nonempty list when
the default is a member. -/
theorem getD_mem {α : Type} {l : List α} {d : α} (n : Nat) (hd : d ∈ l) :
    l.getD n d ∈ l := by
  rcases Nat.lt_or_ge n l.length with h | h
  · rw [List.getD_eq_getElem l d h]
    exact List.getElem_mem h
  · rw [List.getD_eq_default l d h]
    exact hd

/-- Every value of intRange lies in the requested range. -/
theorem intRange_ok {lo hi v : Int} {st st1 : GState}
    (h : intRange lo hi st = .ok (v, st1)) : lo ≤ v ∧ v ≤ hi := by
  unfold intRange at h
  split at h
  · exact absurd h (by simp [throwG])
  · rename_i hle
    simp only [bindG, nextNat, pureG, Except.ok.injEq, Prod.mk.injEq] at h
    obtain ⟨hv, -⟩ := h
    subst hv
    have hpos : 0 < (hi - lo + 1).toNat := by omega
    have hlt := Nat.mod_lt (st.tape.headD 0) hpos
    omega

/-- intRange reaches every point of the range on an explicit tape. -/
theorem intRange_hits {lo hi k : Int} (h1 : lo ≤ k) (h2 : k ≤ hi)
    (rest : List Nat) (en : List String) (nw td : String) :
    intRange lo hi { tape := (k - lo).toNat :: rest, entropy := en, now := nw, today := td } =
      .ok (k, { tape := rest, entropy := en, now := nw, today := td }) := by
  have hnl : ¬ hi < lo := by omega
  have hlt : (k - lo).toNat < (hi - lo + 1).toNat := by omega
  have hk : lo + (((k - lo).toNat : Nat) : Int) = k := by omega
  simp only [intRange, if_neg hnl, bindG, nextNat, pureG, List.headD_cons,
    List.tail_cons, Nat.mod_eq_of_lt hlt, hk]

/-- Every value of sampledFrom is an element of the list. -/
theorem sampledFrom_ok_mem {α : Type} {xs : List α} {st st1 : GState} {v : α}
    (h : sampledFrom xs st = .ok (v, st1)) : v ∈ xs := by
  unfold sampledFrom at h
  match xs, h with
  | [], h => exact absurd h (by simp [throwG])
  | x :: rest, h =>
    simp only [bindG, nextNat, pureG, Except.ok.injEq, Prod.mk.injEq] at h
    obtain ⟨hv, -⟩ := h
    subst hv
    exact getD_mem _ (by simp)

/-- Every value of oneOfG comes from one of the listed generators, run at
the state after the selection draw. -/
theorem oneOfG_ok {α : Type} {gens : List (GenM α)} {st st1 : GState} {v : α}
    (h : oneOfG gens st = .ok (v, st1)) :
    ∃ g ∈ gens, g { st with tape := st.tape.tail } = .ok (v, st1) := by
  unfold oneOfG at h
  match gens, h with
  | [], h => exact absurd h (by simp [throwG])
  | g :: rest, h =>
    simp only [bindG, nextNat] at h
    exact ⟨(g :: rest).getD ((st.tape.headD 0) % (rest.length + 1)) g,
      getD_mem _ (by simp), h⟩

/-- Every value of wrapNullable is null or a value of the wrapped
generator at some state. -/
theorem wrapNullable_ok {s : Schema} {g : GenM JSON} {st st1 : GState} {v : JSON}
    (h : wrapNullable s g st = .ok (v, st1)) :
    v = JSON.null ∨ ∃ st2, g st2 = .ok (v, st1) := by
  unfold wrapNullable at h
  split at h
  · obtain ⟨g2, hg2, hrun⟩ := oneOfG_ok h
    rcases (by simpa using hg2 : g2 = g ∨ g2 = genNull) with rfl | rfl
    · exact Or.inr ⟨_, hrun⟩
    · left
      simp only [genNull, pureG, Except.ok.injEq, Prod.mk.injEq] at hrun
      exact hrun.1.symm
  · exact Or.inr ⟨st, h⟩

/-- With nullable set, wrapNullable yields null whenever the selection
draw answers 1, without consulting the wrapped generator. -/
theorem wrapNullable_null {s : Schema} {g : GenM JSON} (hn : s.nullable = true)
    (rest : List Nat) (en : List String) (nw td : String) :
    wrapNullable s g { tape := 1 :: rest, entropy := en, now := nw, today := td } =
      .ok (JSON.null, { tape := rest, entropy := en, now := nw, today := td }) := by
  simp [wrapNullable, hn, oneOfG, bindG, nextNat, genNull, pureG]

/-- setKey only touches the given key: every key of the result is an old
key or the new one. -/
theorem setKey_keys {α : Type} (k : String) (v : α) :
    ∀ (m : List (String × α)) k2,
      k2 ∈ (setKey m k v).map Prod.fst ↔ k2 ∈ m.map Prod.fst ∨ k2 = k := by
  intro m
  induction m with
  | nil => intro k2; simp [setKey]
  | cons p rest ih =>
    intro k2
    unfold setKey
    by_cases hc : p.1 = k
    · rw [if_pos hc]
      simp only [List.map_cons, List.mem_cons, hc]
      tauto
    · rw [if_neg hc]
      simp only [List.map_cons, List.mem_cons, ih]
      tauto

/-- Looking up the key just set yields the new value. -/
theorem setKey_lookup_self {α : Type} (k : String) (v : α) :
    ∀ m : List (String × α), List.lookup k (setKey m k v) = some v := by
  intro m
  induction m with
  | nil => simp [setKey, List.lookup]
  | cons p rest ih =>
    unfold setKey
    by_cases hc : p.1 = k
    · simp [hc, List.lookup]
    · have : (k == p.1) = false := by
        simp only [beq_eq_false_iff_ne, ne_eq]
        exact fun hh => hc hh.symm
      simp [hc, List.lookup, this, ih]

/-- Looking up a different key is unchanged by setKey. -/
theorem setKey_lookup_other {α : Type} (k k2 : String) (v : α) (h : k2 ≠ k) :
    ∀ m : List (String × α), List.lookup k2 (setKey m k v) = List.lookup k2 m := by
  intro m
  induction m with
  | nil => simp [setKey, List.lookup, beq_eq_false_iff_ne.mpr h]
  | cons p rest ih =>
    unfold setKey
    by_cases hc : p.1 = k
    · have : (k2 == k) = false := beq_eq_false_iff_ne.mpr h
      have hp : (k2 == p.1) = false := by
        rw [beq_eq_false_iff_ne]
        intro hh; exact h (hh.trans hc)
      simp [hc, List.lookup, this, hp]
    · cases hb : (k2 == p.1) <;> simp [hc, List.lookup, hb, ih]

/-- setKey preserves distinctness of the keys. -/
theorem setKey_keys_nodup {α : Type} (k : String) (v : α) :
    ∀ m : List (String × α), (m.map Prod.fst).Nodup →
      ((setKey m k v).map Prod.fst).Nodup := by
  intro m
  induction m with
  | nil => intro h; simp [setKey]
  | cons p rest ih =>
    intro h
    rw [List.map_cons, List.nodup_cons] at h
    unfold setKey
    by_cases hc : p.1 = k
    · rw [if_pos hc, List.map_cons, List.nodup_cons]
      exact ⟨by rw [← hc]; exact h.1, h.2⟩
    · rw [if_neg hc, List.map_cons, List.nodup_cons]
      refine ⟨fun hmem => ?_, ih h.2⟩
      rcases (setKey_keys k v rest p.1).mp hmem with hin | heq
      · exact h.1 hin
      · exact hc heq

/-- A name assigned by a fold of map assignments (or already present) is a
key of the result. -/
theorem foldl_setKey_mem {α : Type} (f : String → α) (name : String) :
    ∀ (names : List String) (m : List (String × α)),
      name ∈ names ∨ name ∈ m.map Prod.fst →
      name ∈ (names.foldl (fun acc n => setKey acc n (f n)) m).map Prod.fst := by
  intro names
  induction names with
  | nil =>
    intro m h
    rcases h with h | h
    · exact absurd h (List.not_mem_nil _)
    · exact h
  | cons n ns ih =>
    intro m h
    rw [List.foldl_cons]
    apply ih
    rcases h with h | h
    · rcases List.mem_cons.mp h with rfl | h2
      · exact Or.inr ((setKey_keys _ _ _ _).mpr (Or.inr rfl))
      · exact Or.inl h2
    · exact Or.inr ((setKey_keys _ _ _ _).mpr (Or.inl h))

/-- A name not in the assigned list keeps its binding across the fold. -/
theorem foldl_setKey_lookup_not_mem {α : Type} (f : String → α) (name : String) :
    ∀ (names : List String) (m : List (String × α)), name ∉ names →
      List.lookup name (names.foldl (fun acc n => setKey acc n (f n)) m) =
        List.lookup name m := by
  intro names
  induction names with
  | nil => intro m _; rfl
  | cons n ns ih =>
    intro m h
    rw [List.foldl_cons, ih _ (fun hh => h (List.mem_cons_of_mem _ hh)),
      setKey_lookup_other _ _ _ (fun hh => h (by rw [hh]; exact List.mem_cons_self _ _))]

/-- A name in the assigned list ends bound to its assigned value. -/
theorem foldl_setKey_lookup_mem {α : Type} (f : String → α) (name : String) :
    ∀ (names : List String) (m : List (String × α)), name ∈ names →
      List.lookup name (names.foldl (fun acc n => setKey acc n (f n)) m) =
        some (f name) := by
  intro names
  induction names with
  | nil => intro m h; exact absurd h (List.not_mem_nil _)
  | cons n ns ih =>
    intro m h
    by_cases hns : name ∈ ns
    · rw [List.foldl_cons]; exact ih _ hns
    · have hn : name = n := by
        rcases List.mem_cons.mp h with h1 | h1
        · exact h1
        · exact absurd h1 hns
      subst hn
      rw [List.foldl_cons, foldl_setKey_lookup_not_mem f name ns _ hns,
        setKey_lookup_self]

/-- The fold of map assignments preserves key distinctness. -/
theorem foldl_setKey_nodup {α : Type} (f : String → α) :
    ∀ (names : List String) (m : List (String × α)), (m.map Prod.fst).Nodup →
      ((names.foldl (fun acc n => setKey acc n (f n)) m).map Prod.fst).Nodup := by
  intro names
  induction names with
  | nil => intro m h; exact h
  | cons n ns ih =>
    intro m h
    rw [List.foldl_cons]
    exact ih _ (setKey_keys_nodup _ _ _ h)

/-- Every key after the fold was a key before or is one of the assigned
names. -/
theorem foldl_setKey_keys_sub {α : Type} (f : String → α) (k : String) :
    ∀ (names : List String) (m : List (String × α)),
      k ∈ (names.foldl (fun acc n => setKey acc n (f n)) m).map Prod.fst →
      k ∈ m.map Prod.fst ∨ k ∈ names := by
  intro names
  induction names with
  | nil => intro m h; exact Or.inl h
  | cons n ns ih =>
    intro m h
    rw [List.foldl_cons] at h
    rcases ih _ h with h2 | h2
    · rcases (setKey_keys _ _ _ _).mp h2 with h3 | h3
      · exact Or.inl h3
      · exact Or.inr (h3 ▸ List.mem_cons_self _ _)
    · exact Or.inr (List.mem_cons_of_mem _ h2)

/-- extrasLoop preserves key distinctness. -/
theorem extrasLoop_ok_nodup {ap : Option Schema} :
    ∀ {n : Nat} {acc : List (String × Option Schema)} {st st1 : GState}
      {l : List (String × Option Schema)},
      extrasLoop ap n acc st = .ok (l, st1) → (acc.map Prod.fst).Nodup →
      (l.map Prod.fst).Nodup := by
  intro n
  induction n with
  | zero =>
    intro acc st st1 l h hacc
    simp only [extrasLoop, pureG, Except.ok.injEq, Prod.mk.injEq] at h
    exact h.1 ▸ hacc
  | succ n ih =>
    intro acc st st1 l h hacc
    simp only [extrasLoop] at h
    rw [bindG_eq_ok] at h
    obtain ⟨key, st2, -, h2⟩ := h
    exact ih h2 (setKey_keys_nodup _ _ _ hacc)

/-- Every value of listOfLen satisfies any property all draws of the
element generator satisfy. -/
theorem listOfLen_ok_mem {α : Type} {g : GenM α} {P : α → Prop}
    (hg : ∀ st x st1, g st = .ok (x, st1) → P x) :
    ∀ {n : Nat} {st st1 : GState} {l : List α},
      listOfLen g n st = .ok (l, st1) → ∀ x ∈ l, P x := by
  intro n
  induction n with
  | zero =>
    intro st st1 l h
    simp only [listOfLen, pureG, Except.ok.injEq, Prod.mk.injEq] at h
    rw [← h.1]
    intro x hx
    exact absurd hx (List.not_mem_nil _)
  | succ n ih =>
    intro st st1 l h
    simp only [listOfLen] at h
    rw [bindG_eq_ok] at h
    obtain ⟨x, st2, hx, h2⟩ := h
    rw [bindG_eq_ok] at h2
    obtain ⟨xs, st3, hxs, h3⟩ := h2
    simp only [pureG, Except.ok.injEq, Prod.mk.injEq] at h3
    rw [← h3.1]
    intro y hy
    rcases List.mem_cons.mp hy with rfl | hy2
    · exact hg _ _ _ hx
    · exact ih hxs y hy2

/-- Every element of a distinctLoop result is from the accumulator or a
draw of the element generator. -/
theorem distinctLoop_ok_mem {α β : Type} [BEq β] {g : GenM α} {key : α → β}
    {P : α → Prop} (hg : ∀ st x st1, g st = .ok (x, st1) → P x) :
    ∀ {budget : Nat} {target : Nat} {acc : List α} {st st1 : GState} {l : List α},
      distinctLoop g key target budget acc st = .ok (l, st1) →
      (∀ x ∈ acc, P x) → ∀ x ∈ l, P x := by
  intro budget
  induction budget with
  | zero =>
    intro target acc st st1 l h hacc
    simp only [distinctLoop] at h
    split at h
    · simp only [pureG, Except.ok.injEq, Prod.mk.injEq] at h
      rw [← h.1]
      intro x hx
      exact hacc x (List.mem_reverse.mp hx)
    · exact absurd h (by simp [throwG])
  | succ budget ih =>
    intro target acc st st1 l h hacc
    simp only [distinctLoop] at h
    split at h
    · simp only [pureG, Except.ok.injEq, Prod.mk.injEq] at h
      rw [← h.1]
      intro x hx
      exact hacc x (List.mem_reverse.mp hx)
    · rw [bindG_eq_ok] at h
      obtain ⟨x, st2, hx, h2⟩ := h
      split at h2
      · exact ih h2 hacc
      · refine ih h2 ?_
        intro y hy
        rcases List.mem_cons.mp hy with rfl | hy2
        · exact hg _ _ _ hx
        · exact hacc y hy2

/-- distinctLoop only succeeds with exactly the target count (starting
from a shorter accumulator). -/
theorem distinctLoop_ok_length {α β : Type} [BEq β] {g : GenM α} {key : α → β} :
    ∀ {budget : Nat} {target : Nat} {acc : List α} {st st1 : GState} {l : List α},
      distinctLoop g key target budget acc st = .ok (l, st1) →
      acc.length ≤ target → l.length = target := by
  intro budget
  induction budget with
  | zero =>
    intro target acc st st1 l h hle
    simp only [distinctLoop] at h
    split at h
    · rename_i hta
      simp only [pureG, Except.ok.injEq, Prod.mk.injEq] at h
      rw [← h.1, List.length_reverse]
      omega
    · exact absurd h (by simp [throwG])
  | succ budget ih =>
    intro target acc st st1 l h hle
    simp only [distinctLoop] at h
    split at h
    · rename_i hta
      simp only [pureG, Except.ok.injEq, Prod.mk.injEq] at h
      rw [← h.1, List.length_reverse]
      omega
    · rename_i hta
      rw [bindG_eq_ok] at h
      obtain ⟨x, st2, hx, h2⟩ := h
      split at h2
      · exact ih h2 hle
      · exact ih h2 (by simp; omega)

/-- The value loop of genObject pairs each chosen key with a value drawn
from its schema, in order. -/
theorem propsLoop_ok {gen : Option Schema → GenM JSON} :
    ∀ {l : List (String × Option Schema)} {acc : List (String × JSON)}
      {st st1 : GState} {fields : List (String × JSON)},
      propsLoop gen l acc st = .ok (fields, st1) →
      ∃ produced, fields = acc.reverse ++ produced
        ∧ List.Forall₂ (fun (p : String × Option Schema) (q : String × JSON) =>
            p.1 = q.1 ∧ ∃ st2 st3, gen p.2 st2 = .ok (q.2, st3)) l produced := by
  intro l
  induction l with
  | nil =>
    intro acc st st1 fields h
    simp only [propsLoop, pureG, Except.ok.injEq, Prod.mk.injEq] at h
    exact ⟨[], by rw [← h.1, List.append_nil], List.Forall₂.nil⟩
  | cons p rest ih =>
    intro acc st st1 fields h
    obtain ⟨k, ps⟩ := p
    simp only [propsLoop] at h
    rw [bindG_eq_ok] at h
    obtain ⟨v, st2, hv, h2⟩ := h
    obtain ⟨produced, hfields, hrel⟩ := ih h2
    refine ⟨(k, v) :: produced, ?_, List.Forall₂.cons ⟨rfl, st, st2, hv⟩ hrel⟩
    rw [hfields, List.reverse_cons, List.append_assoc, List.singleton_append]

/-- The produced keys of the value loop are the chosen keys. -/
theorem forall2_keys {α β : Type} {R : α → β → Prop} {f : α → String} {g : β → String}
    (hf : ∀ a b, R a b → f a = g b) :
    ∀ {l : List α} {produced : List β}, List.Forall₂ R l produced →
      produced.map g = l.map f := by
  intro l produced h
  induction h with
  | nil => rfl
  | cons hab hrest ih => simp only [List.map_cons, ih, hf _ _ hab]

/-- With distinct chosen keys, the value of every produced pair was drawn
from the schema its key is bound to. -/
theorem forall2_mem_lookup {R : Option Schema → JSON → Prop} :
    ∀ {l : List (String × Option Schema)} {produced : List (String × JSON)},
      List.Forall₂ (fun (p : String × Option Schema) (q : String × JSON) =>
        p.1 = q.1 ∧ R p.2 q.2) l produced →
      (l.map Prod.fst).Nodup →
      ∀ k v, (k, v) ∈ produced → ∀ ps, List.lookup k l = some ps → R ps v := by
  intro l produced h
  induction h with
  | nil =>
    intro _ k v hmem
    exact absurd hmem (List.not_mem_nil _)
  | cons hab hrest ih =>
    rename_i p q l2 produced2
    intro hnd k v hmem ps hlook
    rw [List.map_cons, List.nodup_cons] at hnd
    rcases List.mem_cons.mp hmem with rfl | hmem2
    · have hk : k = p.1 := hab.1.symm
      rw [List.lookup] at hlook
      rw [show (k == p.1) = true from beq_iff_eq.mpr hk] at hlook
      simp only [Option.some.injEq] at hlook
      exact hlook ▸ hab.2
    · have hkeys : k ∈ l2.map Prod.fst := by
        have hh : k ∈ produced2.map Prod.fst :=
          List.mem_map.mpr ⟨(k, v), hmem2, rfl⟩
        rw [forall2_keys (fun a b hr => hr.1) hrest] at hh
        exact hh
      have hk : k ≠ p.1 := fun hh => hnd.1 (hh ▸ hkeys)
      rw [List.lookup] at hlook
      rw [show (k == p.1) = false from beq_eq_false_iff_ne.mpr hk] at hlook
      exact ih hnd.2 k v hmem2 ps hlook

/-- A key of an association list has a binding. -/
theorem lookup_mem_keys {α : Type} {k : String} :
    ∀ {m : List (String × α)}, k ∈ m.map Prod.fst → ∃ b, List.lookup k m = some b := by
  intro m
  induction m with
  | nil => intro h; exact absurd h (List.not_mem_nil _)
  | cons p rest ih =>
    intro h
    by_cases hc : k = p.1
    · exact ⟨p.2, by rw [List.lookup, show (k == p.1) = true from beq_iff_eq.mpr hc]⟩
    · have : k ∈ rest.map Prod.fst := by
        rcases List.mem_cons.mp h with h1 | h1
        · exact absurd h1 hc
        · exact h1
      obtain ⟨b, hb⟩ := ih this
      exact ⟨b, by rw [List.lookup, show (k == p.1) = false from beq_eq_false_iff_ne.mpr hc]; exact hb⟩

/-- Every element of a sliceOfNDistinct draw satisfies any property all
element draws satisfy. -/
theorem sliceOfNDistinct_ok_mem {α β : Type} [BEq β] {g : GenM α} {key : α → β}
    {minLen maxLen : Int} {P : α → Prop}
    (hg : ∀ st x st1, g st = .ok (x, st1) → P x) {st st1 : GState} {l : List α}
    (h : sliceOfNDistinct g minLen maxLen key st = .ok (l, st1)) : ∀ x ∈ l, P x := by
  simp only [sliceOfNDistinct] at h
  rw [bindG_eq_ok] at h
  obtain ⟨n, st2, -, h2⟩ := h
  exact distinctLoop_ok_mem hg h2 (fun x hx => absurd hx (List.not_mem_nil _))

/-- With equal length bounds, sliceOfNDistinct draws exactly that many
elements. -/
theorem sliceOfNDistinct_ok_length {α β : Type} [BEq β] {g : GenM α} {key : α → β}
    {n : Int} {st st1 : GState} {l : List α} (hn : 0 ≤ n)
    (h : sliceOfNDistinct g n n key st = .ok (l, st1)) : l.length = n.toNat := by
  simp only [sliceOfNDistinct] at h
  rw [bindG_eq_ok] at h
  obtain ⟨m, st2, hm, h2⟩ := h
  rw [if_neg (by omega : ¬ n < 0)] at hm
  have hrange := intRange_ok hm
  obtain rfl : m = n := by omega
  exact distinctLoop_ok_length h2 (by simp)

/-- The full characterization of a successful genObject draw: the value is
an object whose keys are exactly the chosen keys (distinct), every
required name that has a declared property is bound to that property
schema, with additional_properties_max at zero every key is a declared
property name, and every field value was drawn by the child generator of
the schema its key is bound to. -/
theorem genObject_ok_char {opts : GenerationOptions} {fuel : Nat} {sc : Schema}
    {st st1 : GState} {v : JSON}
    (h : runCall (fuel + 1) (.object opts sc) st = .ok (v, st1)) :
    ∃ (allProps : List (String × Option Schema)) (fields : List (String × JSON)),
      v = JSON.obj fields
      ∧ (allProps.map Prod.fst).Nodup
      ∧ fields.map Prod.fst = allProps.map Prod.fst
      ∧ (∀ name, contains sc.required name = true → name ∈ sc.properties.map Prod.fst →
          List.lookup name allProps = some ((List.lookup name sc.properties).getD none))
      ∧ (opts.AdditionalPropertiesMax = 0 →
          ∀ name, name ∈ allProps.map Prod.fst → name ∈ sc.properties.map Prod.fst)
      ∧ (∀ kv ∈ fields, ∃ ps st2 st3,
            List.lookup kv.1 allProps = some ps ∧
            runCall fuel (.fromSchema (childOpts opts) ps) st2 = .ok (kv.2, st3)) := by
  have hreqmem : ∀ name, contains sc.required name = true →
      name ∈ sc.properties.map Prod.fst →
      name ∈ (sc.properties.filter (fun p => contains sc.required p.1)).map Prod.fst := by
    intro name hc hm
    obtain ⟨pair, hpair, hfst⟩ := List.mem_map.mp hm
    exact List.mem_map.mpr ⟨pair, List.mem_filter.mpr ⟨hpair, by rw [hfst]; exact hc⟩, hfst⟩
  have hfiltsub : ∀ (q : String × Option Schema → Bool) k,
      k ∈ (sc.properties.filter q).map Prod.fst → k ∈ sc.properties.map Prod.fst := by
    intro q k hk
    obtain ⟨pair, hpair, hfst⟩ := List.mem_map.mp hk
    exact List.mem_map.mpr ⟨pair, (List.mem_filter.mp hpair).1, hfst⟩
  simp only [runCall] at h
  rw [bindG_eq_ok] at h
  obtain ⟨allProps1, stA, h1, h⟩ := h
  rw [bindG_eq_ok] at h
  obtain ⟨allProps2, stB, h2, h⟩ := h
  -- facts about the extras phase
  have hA1 : (allProps1.map Prod.fst).Nodup := by
    split at h1
    · simp only [pureG, Except.ok.injEq, Prod.mk.injEq] at h1
      rw [← h1.1]; exact List.nodup_nil
    · rw [bindG_eq_ok] at h1
      obtain ⟨n, stN, -, hloop⟩ := h1
      exact extrasLoop_ok_nodup hloop List.nodup_nil
  have hA2 : opts.AdditionalPropertiesMax = 0 → allProps1 = [] := by
    intro hzero
    split at h1
    · simp only [pureG, Except.ok.injEq, Prod.mk.injEq] at h1
      exact h1.1.symm
    · rw [bindG_eq_ok] at h1
      obtain ⟨n, stN, hn, hloop⟩ := h1
      rw [hzero] at hn
      have := intRange_ok hn
      obtain rfl : n = 0 := by omega
      simp only [Int.toNat_zero, extrasLoop, pureG, Except.ok.injEq, Prod.mk.injEq] at hloop
      exact hloop.1.symm
  -- facts about the optional phase
  have hB1 : (allProps2.map Prod.fst).Nodup := by
    split at h2
    · rw [bindG_eq_ok] at h2
      obtain ⟨keys, stK, -, hp⟩ := h2
      simp only [pureG, Except.ok.injEq, Prod.mk.injEq] at hp
      rw [← hp.1]
      exact foldl_setKey_nodup _ _ _ hA1
    · simp only [pureG, Except.ok.injEq, Prod.mk.injEq] at h2
      rw [← h2.1]; exact hA1
  have hB2 : ∀ k, k ∈ allProps2.map Prod.fst →
      k ∈ allProps1.map Prod.fst ∨ k ∈ sc.properties.map Prod.fst := by
    intro k hk
    split at h2
    · rw [bindG_eq_ok] at h2
      obtain ⟨keys, stK, hkeys, hp⟩ := h2
      simp only [pureG, Except.ok.injEq, Prod.mk.injEq] at hp
      rw [← hp.1] at hk
      rcases foldl_setKey_keys_sub _ _ _ _ hk with hin | hin
      · exact Or.inl hin
      · refine Or.inr ?_
        have hmem := sliceOfNDistinct_ok_mem
          (P := fun x => x ∈ (sc.properties.filter
            (fun p => !(contains sc.required p.1))).map Prod.fst)
          (fun st x st1 hx => sampledFrom_ok_mem hx) hkeys
        exact hfiltsub _ _ (hmem k hin)
    · simp only [pureG, Except.ok.injEq, Prod.mk.injEq] at h2
      rw [← h2.1] at hk
      exact Or.inl hk
  -- facts about the final (required) phase
  have hC1 : ((((sc.properties.filter (fun p => contains sc.required p.1)).map Prod.fst).foldl
      (fun m name => setKey m name ((List.lookup name sc.properties).getD none))
      allProps2).map Prod.fst).Nodup := foldl_setKey_nodup _ _ _ hB1
  split at h
  · rename_i hlen
    simp only [pureG, Except.ok.injEq, Prod.mk.injEq] at h
    have hempty := List.length_eq_zero.mp hlen
    refine ⟨_, [], h.1.symm, hC1, by simp [hempty], ?_, ?_, ?_⟩
    · intro name hreq hmem
      exact (foldl_setKey_lookup_mem _ _ _ _ (hreqmem name hreq hmem))
    · intro hzero name hmem
      rcases foldl_setKey_keys_sub _ _ _ _ hmem with hin | hin
      · rcases hB2 _ hin with hin2 | hin2
        · rw [hA2 hzero] at hin2
          exact absurd hin2 (List.not_mem_nil _)
        · exact hin2
      · exact hfiltsub _ _ hin
    · intro kv hkv
      exact absurd hkv (List.not_mem_nil _)
  · rw [bindG_eq_ok] at h
    obtain ⟨fields, stF, hfields, hpure⟩ := h
    simp only [pureG, Except.ok.injEq, Prod.mk.injEq] at hpure
    obtain ⟨produced, hprod, hrel⟩ := propsLoop_ok hfields
    simp only [List.reverse_nil, List.nil_append] at hprod
    subst hprod
    refine ⟨_, fields, hpure.1.symm, hC1,
      forall2_keys (fun a b hr => hr.1) hrel, ?_, ?_, ?_⟩
    · intro name hreq hmem
      exact foldl_setKey_lookup_mem _ _ _ _ (hreqmem name hreq hmem)
    · intro hzero name hmem
      rcases foldl_setKey_keys_sub _ _ _ _ hmem with hin | hin
      · rcases hB2 _ hin with hin2 | hin2
        · rw [hA2 hzero] at hin2
          exact absurd hin2 (List.not_mem_nil _)
        · exact hin2
      · exact hfiltsub _ _ hin
    · intro kv hkv
      have hkmem : kv.1 ∈ fields.map Prod.fst := List.mem_map.mpr ⟨kv, hkv, rfl⟩
      rw [forall2_keys (fun a b hr => hr.1) hrel] at hkmem
      obtain ⟨ps, hps⟩ := lookup_mem_keys hkmem
      refine ⟨ps, ?_⟩
      have := forall2_mem_lookup
        (R := fun ps w => ∃ st2 st3,
          runCall fuel (.fromSchema (childOpts opts) ps) st2 = .ok (w, st3))
        hrel hC1 kv.1 kv.2 (by simpa using hkv) ps hps
      obtain ⟨st2, st3, hdraw⟩ := this
      exact ⟨st2, st3, hps, hdraw⟩

/-- Every value of float64Range lies in the requested range. -/
theorem float64Range_ok {lo hi v : Rat} {st st1 : GState}
    (h : float64Range lo hi st = .ok (v, st1)) : lo ≤ v ∧ v ≤ hi := by
  unfold float64Range at h
  split at h
  · exact absurd h (by simp [throwG])
  · rename_i hle
    push_neg at hle
    simp only [bindG, nextNat, pureG, Except.ok.injEq, Prod.mk.injEq] at h
    obtain ⟨hv, -⟩ := h
    subst hv
    have hd : (0 : Rat) ≤ hi - lo := by linarith
    have hm : (st.tape.headD 0) % 97 < 97 := Nat.mod_lt _ (by omega)
    have h0 : (0 : Rat) ≤ (((st.tape.headD 0) % 97 : Nat) : Rat) := by positivity
    have h96 : (((st.tape.headD 0) % 97 : Nat) : Rat) ≤ 96 := by
      exact_mod_cast Nat.le_of_lt_succ hm
    constructor
    · nlinarith
    · nlinarith

/-- A state with a given tape and empty external effects. -/
def mkState (t : List Nat) : GState :=
  { tape := t, entropy := [], now := "", today := "" }

/-- The Go int64 conversion of an integral float is that integer. -/
theorem ratTrunc_intCast (n : Int) : ratTrunc ((n : Int) : Rat) = n := by
  unfold ratTrunc
  rw [Rat.intCast_num, Rat.intCast_den]
  simp [Int.tdiv_one]

/-- float64Range answers the lower endpoint on a zero tape answer. -/
theorem float64Range_hits_lo {lo hi : Rat} (h : ¬ hi < lo)
    (rest : List Nat) (en : List String) (nw td : String) :
    float64Range lo hi { tape := 0 :: rest, entropy := en, now := nw, today := td } =
      .ok (lo, { tape := rest, entropy := en, now := nw, today := td }) := by
  simp only [float64Range, if_neg h, bindG, nextNat, pureG, List.headD_cons,
    List.tail_cons, Nat.zero_mod, Nat.cast_zero, mul_zero, zero_div, add_zero]

/-- A successful draw of genInteger with multipleOf absent (or the zero
value, which the code treats as absent) is null (possible only when
nullable) or an integer within the effective clamped bounds. -/
theorem genInteger_plain_ok {s : Schema} {st st1 : GState} {v : JSON}
    (hmo : s.multipleOf = none ∨ s.multipleOf = some 0)
    (henum : s.enum = [])
    (h : genInteger s st = .ok (v, st1)) :
    v = JSON.null ∨ ∃ n : Int, v = JSON.int n ∧
      intLowerBound s ≤ n ∧ n ≤ intUpperBound s := by
  have hfin : (if 0 < s.enum.length then sampledFrom s.enum
      else wrapNullable s (bindG (intRange (intLowerBound s) (intUpperBound s))
        fun n => pureG (JSON.int n))) st = .ok (v, st1) := by
    rcases hmo with hmo | hmo
    · simpa only [genInteger, hmo] using h
    · simpa only [genInteger, hmo, ne_eq, not_true_eq_false, if_false] using h
  rw [if_neg (by rw [henum]; simp)] at hfin
  rcases wrapNullable_ok hfin with hnull | ⟨st2, hrun⟩
  · exact Or.inl hnull
  · rw [bindG_eq_ok] at hrun
    obtain ⟨n, st3, hn, hp⟩ := hrun
    simp only [pureG, Except.ok.injEq, Prod.mk.injEq] at hp
    have hb := intRange_ok hn
    exact Or.inr ⟨n, hp.1.symm, hb.1, hb.2⟩

/-- A successful draw of genInteger with a nonzero multipleOf whose int64
conversion is nonzero is k times that conversion, with k in the truncated
quotient range. -/
theorem genInteger_mult_char {s : Schema} {mo : Rat} {st st1 : GState} {v : JSON}
    (hmo : s.multipleOf = some mo) (h0 : ¬ mo = 0) (hmz : ¬ ratTrunc mo = 0)
    (henum : s.enum = []) (hnul : s.nullable = false)
    (h : genInteger s st = .ok (v, st1)) :
    ∃ k, (intLowerBound s).tdiv (ratTrunc mo) ≤ k ∧
      k ≤ (intUpperBound s).tdiv (ratTrunc mo) ∧ v = JSON.int (k * ratTrunc mo) := by
  simp only [genInteger, hmo, ne_eq, h0, not_false_eq_true, if_true, hmz, if_false] at h
  split at h
  · exact absurd h (by simp [throwG])
  · rw [if_neg (by rw [henum]; simp), wrapNullable, hnul] at h
    simp only [Bool.false_eq_true, if_false] at h
    rw [bindG_eq_ok] at h
    obtain ⟨k, st2, hk, hp⟩ := h
    simp only [pureG, Except.ok.injEq, Prod.mk.injEq] at hp
    have hb := intRange_ok hk
    exact ⟨k, hb.1, hb.2, hp.1.symm⟩

/-- genInteger fails fast (the multipleOf panic) when the truncated
quotient range is empty. -/
theorem genInteger_mult_err {s : Schema} {mo : Rat} (st : GState)
    (hmo : s.multipleOf = some mo) (h0 : ¬ mo = 0) (hmz : ¬ ratTrunc mo = 0)
    (hlt : (intUpperBound s).tdiv (ratTrunc mo) < (intLowerBound s).tdiv (ratTrunc mo)) :
    genInteger s st = .error .multipleOfTooLarge := by
  simp only [genInteger, hmo, ne_eq, h0, not_false_eq_true, if_true, hmz, if_false]
  rw [if_pos hlt]
  rfl

/-- genInteger reaches every multiple of the quotient range on an explicit
tape. -/
theorem genInteger_mult_hits {s : Schema} {mo : Rat} {k : Int}
    (hmo : s.multipleOf = some mo) (h0 : ¬ mo = 0) (hmz : ¬ ratTrunc mo = 0)
    (henum : s.enum = []) (hnul : s.nullable = false)
    (hk1 : (intLowerBound s).tdiv (ratTrunc mo) ≤ k)
    (hk2 : k ≤ (intUpperBound s).tdiv (ratTrunc mo)) :
    genInteger s (mkState [(k - (intLowerBound s).tdiv (ratTrunc mo)).toNat]) =
      .ok (JSON.int (k * ratTrunc mo), mkState []) := by
  simp only [genInteger, hmo, ne_eq, h0, not_false_eq_true, if_true, hmz, if_false]
  rw [if_neg (by omega), if_neg (by rw [henum]; simp), wrapNullable, hnul]
  simp only [Bool.false_eq_true, if_false]
  rw [bindG_eq_ok]
  refine ⟨k, mkState [], ?_, rfl⟩
  simpa [mkState] using intRange_hits hk1 hk2 [] [] "" ""

/-- With nullable set (and no enum or multipleOf), genInteger draws null
when the nullable choice answers 1. -/
theorem genInteger_nullable_null {s : Schema}
    (hn : s.nullable = true) (henum : s.enum = []) (hmo : s.multipleOf = none) :
    genInteger s (mkState [1]) = .ok (JSON.null, mkState []) := by
  simp only [genInteger, hmo]
  rw [if_neg (by rw [henum]; simp)]
  simpa [mkState] using
    wrapNullable_null (g := bindG (intRange (intLowerBound s) (intUpperBound s))
      fun n => pureG (JSON.int n)) hn [] [] "" ""

/-- A non-nullable integer node whose enum does not hold null never draws
null. -/
theorem genInteger_not_null {s : Schema} {st st1 : GState} {v : JSON}
    (hn : s.nullable = false) (he : JSON.null ∉ s.enum)
    (h : genInteger s st = .ok (v, st1)) : v ≠ JSON.null := by
  have hfinish : ∀ (base : GenM JSON),
      (∀ st2 st3 w, base st2 = .ok (w, st3) → w ≠ JSON.null) →
      (if 0 < s.enum.length then sampledFrom s.enum else wrapNullable s base) st =
        .ok (v, st1) → v ≠ JSON.null := by
    intro base hbase hif
    split at hif
    · exact fun hnull => he (hnull ▸ sampledFrom_ok_mem hif)
    · rw [wrapNullable, hn] at hif
      simp only [Bool.false_eq_true, if_false] at hif
      exact hbase _ _ _ hif
  have hplain : ∀ st2 st3 w,
      (bindG (intRange (intLowerBound s) (intUpperBound s))
        fun n => pureG (JSON.int n)) st2 = .ok (w, st3) → w ≠ JSON.null := by
    intro st2 st3 w hw
    rw [bindG_eq_ok] at hw
    obtain ⟨n, st4, -, hp⟩ := hw
    simp only [pureG, Except.ok.injEq, Prod.mk.injEq] at hp
    rw [← hp.1]
    simp
  cases hmo : s.multipleOf with
  | none =>
    simp only [genInteger, hmo] at h
    exact hfinish _ hplain h
  | some mo =>
    simp only [genInteger, hmo, ne_eq] at h
    split at h
    · split at h
      · exact absurd h (by simp [throwG])
      · split at h
        · exact absurd h (by simp [throwG])
        · refine hfinish _ ?_ h
          intro st2 st3 w hw
          rw [bindG_eq_ok] at hw
          obtain ⟨n, st4, -, hp⟩ := hw
          simp only [pureG, Except.ok.injEq, Prod.mk.injEq] at hp
          rw [← hp.1]
          simp
    · exact hfinish _ hplain h

/-- With multipleOf and enum absent and nullable unset, genNumber draws
the effective lower bound on a zero tape. -/
theorem genNumber_plain_hits_lo {s : Schema}
    (hmo : s.multipleOf = none) (henum : s.enum = []) (hnul : s.nullable = false)
    (hle : ¬ numUpperBound s < numLowerBound s) :
    genNumber s (mkState [0]) = .ok (JSON.num (numLowerBound s), mkState []) := by
  simp only [genNumber, hmo]
  rw [if_neg (by rw [henum]; simp), wrapNullable, hnul]
  simp only [Bool.false_eq_true, if_false]
  rw [bindG_eq_ok]
  exact ⟨numLowerBound s, mkState [],
    by simpa [mkState] using float64Range_hits_lo hle [] [] "" "", rfl⟩

/-- A successful draw of genNumber with multipleOf absent (or zero) is
null (possible only when nullable) or a number within the effective
bounds. -/
theorem genNumber_plain_ok {s : Schema} {st st1 : GState} {v : JSON}
    (hmo : s.multipleOf = none ∨ s.multipleOf = some 0)
    (henum : s.enum = [])
    (h : genNumber s st = .ok (v, st1)) :
    v = JSON.null ∨ ∃ q : Rat, v = JSON.num q ∧
      numLowerBound s ≤ q ∧ q ≤ numUpperBound s := by
  have hfin : (if 0 < s.enum.length then sampledFrom s.enum
      else wrapNullable s (bindG (float64Range (numLowerBound s) (numUpperBound s))
        fun q => pureG (JSON.num q))) st = .ok (v, st1) := by
    rcases hmo with hmo | hmo
    · simpa only [genNumber, hmo] using h
    · simpa only [genNumber, hmo, ne_eq, not_true_eq_false, if_false] using h
  rw [if_neg (by rw [henum]; simp)] at hfin
  rcases wrapNullable_ok hfin with hnull | ⟨st2, hrun⟩
  · exact Or.inl hnull
  · rw [bindG_eq_ok] at hrun
    obtain ⟨q, st3, hq, hp⟩ := hrun
    simp only [pureG, Except.ok.injEq, Prod.mk.injEq] at hp
    have hb := float64Range_ok hq
    exact Or.inr ⟨q, hp.1.symm, hb.1, hb.2⟩

/-! ### Concrete schemas used by the claim theorems -/

/-- An integer node also tagged null: type [integer, null]. -/
def intNullTypesSchema : Schema :=
  .mk { emptyFlat with type := some ["integer", "null"] } none [] none [] [] []

/-- type integer, minimum 5, maximum 7, multipleOf 3. -/
def intMult35Schema : Schema :=
  .mk { emptyFlat with
        type := some ["integer"]
        min := some 5
        max := some 7
        multipleOf := some 3 } none [] none [] [] []

/-- type integer, minimum -5, maximum 6, multipleOf 3. -/
def intMultNegSchema : Schema :=
  .mk { emptyFlat with
        type := some ["integer"]
        min := some (-5)
        max := some 6
        multipleOf := some 3 } none [] none [] [] []

/-- type integer, minimum 5, maximum 7. -/
def intPlainSchema : Schema :=
  .mk { emptyFlat with type := some ["integer"], min := some 5, max := some 7 }
    none [] none [] [] []

/-- type number, minimum 5, maximum 7. -/
def numPlainSchema : Schema :=
  .mk { emptyFlat with type := some ["number"], min := some 5, max := some 7 }
    none [] none [] [] []

/-- type string, format email. -/
def emailFormatSchema : Schema :=
  .mk { emptyFlat with type := some ["string"], format := "email" } none [] none [] [] []

/-- type string with a plain regex pattern. -/
def patternOnlySchema : Schema :=
  .mk { emptyFlat with type := some ["string"], pattern := "ab+c" } none [] none [] [] []

/-- type string, format uuid. -/
def uuidFormatSchema : Schema :=
  .mk { emptyFlat with type := some ["string"], format := "uuid" } none [] none [] [] []

/-- type string with enum. -/
def strEnumSchema : Schema :=
  .mk { emptyFlat with type := some ["string"], enum := [JSON.str "x"] } none [] none [] [] []

/-- type array with a nonempty enum and max_items 0. -/
def arrayEnumSchema : Schema :=
  .mk { emptyFlat with
        type := some ["array"]
        enum := [JSON.arr [JSON.int 42]]
        maxItems := some 0 } none [] none [] [] []

/-! ### C8 -/

/-- C8: corrected.  The claim that a node typed with one non-null tag
alongside the null tag dispatches without error is false: the dispatcher
panics on every node with more than one type tag (null included), even
though the integer generator itself succeeds on such a node. -/
theorem C8_counterexample :
    intNullTypesSchema.type = some ["integer", "null"]
  ∧ evalG (GenFromSchema NewGenerationOptions 2 (some intNullTypesSchema)) (mkState []) =
      .error .multipleTypes
  ∧ evalG (genInteger intNullTypesSchema) (mkState []) = .ok (JSON.int MinInt64) :=
  ⟨rfl, rfl, rfl⟩

/-- C8 (amended): a node (no compositors) whose type list has more than
one tag — null counted like any other — is the multiple-types
configuration error; a type list with exactly one tag dispatches to the
corresponding generator without error. -/
theorem C8_single_type_dispatch (opts : GenerationOptions) (fuel : Nat) (s : Schema)
    (st : GState) (ts : List String)
    (hall : s.allOf = []) (hany : s.anyOf = []) (hone : s.oneOf = [])
    (hts : s.type = some ts) :
    (1 < ts.length →
      GenFromSchema opts (fuel + 1) (some s) st = .error .multipleTypes)
  ∧ (ts = ["string"] → GenFromSchema opts (fuel + 1) (some s) st = genString s st)
  ∧ (ts = ["integer"] → GenFromSchema opts (fuel + 1) (some s) st = genInteger s st)
  ∧ (ts = ["number"] → GenFromSchema opts (fuel + 1) (some s) st = genNumber s st)
  ∧ (ts = ["boolean"] → GenFromSchema opts (fuel + 1) (some s) st = genBoolean s st)
  ∧ (ts = ["array"] → GenFromSchema opts (fuel + 1) (some s) st = genArray opts fuel s st)
  ∧ (ts = ["object"] → GenFromSchema opts (fuel + 1) (some s) st = genObject opts fuel s st) := by
  refine ⟨?_, ?_, ?_, ?_, ?_, ?_, ?_⟩
  · intro hlen
    simp [GenFromSchema, runCall, hall, hany, hone, hts, hlen, throwG]
  all_goals rintro rfl
  all_goals simp [GenFromSchema, genArray, genObject, runCall, hall, hany, hone, hts]

/-- Witness for C8: both halves at concrete nodes. -/
theorem C8_witness :
    GenFromSchema NewGenerationOptions 1 (some intNullTypesSchema) (mkState []) =
      .error .multipleTypes
  ∧ GenFromSchema NewGenerationOptions 1 (some intPlainSchema) (mkState []) =
      genInteger intPlainSchema (mkState []) :=
  ⟨(C8_single_type_dispatch NewGenerationOptions 0 intNullTypesSchema (mkState [])
      ["integer", "null"] rfl rfl rfl rfl).1 (by decide),
   (C8_single_type_dispatch NewGenerationOptions 0 intPlainSchema (mkState [])
      ["integer"] rfl rfl rfl rfl).2.2.1 rfl⟩

/-! ### C7 -/

/-- C7: code_bug.  The repository README documents a WithPatternFunc
option and a panic when a pattern or regex-shaped format is hit without
it; the code has no such option and no such error path: on a string node
with format email, and on one with a plain pattern, generation succeeds
with a built-in regex-directed string draw. -/
theorem C7_no_pattern_func_error :
    evalG (genString emailFormatSchema) (mkState []) =
      .ok (JSON.str (emailPattern ++ stringOfNat 1 0))
  ∧ evalG (genString patternOnlySchema) (mkState []) =
      .ok (JSON.str ("ab+c" ++ stringOfNat 1 0)) :=
  ⟨rfl, rfl⟩

/-! ### C9 -/

/-- C9: code_bug.  A draw is not a pure function of the random source:
with identical tapes (every random answer equal) but different uuid
entropy, the string generator for format uuid returns different values,
so two such runs are not byte-identical as the claim requires. -/
theorem C9_entropy_dependence :
    ({ tape := [5], entropy := ["aaaa-bbbb"], now := "t0", today := "d0" } : GState).tape =
      ({ tape := [5], entropy := ["cccc-dddd"], now := "t0", today := "d0" } : GState).tape
  ∧ evalG (genString uuidFormatSchema)
      { tape := [5], entropy := ["aaaa-bbbb"], now := "t0", today := "d0" } =
      .ok (JSON.str "aaaa-bbbb")
  ∧ evalG (genString uuidFormatSchema)
      { tape := [5], entropy := ["cccc-dddd"], now := "t0", today := "d0" } =
      .ok (JSON.str "cccc-dddd")
  ∧ JSON.str "aaaa-bbbb" ≠ JSON.str "cccc-dddd" := by
  refine ⟨rfl, rfl, rfl, ?_⟩
  intro h
  injection h with h2
  exact absurd h2 (by decide)

/-! ### C6 -/

/-- C6: corrected.  Enum closure fails for array-typed nodes: the array
generator ignores the enum entirely and here draws the empty array, which
is not among the enum values. -/
theorem C6_counterexample :
    arrayEnumSchema.enum = [JSON.arr [JSON.int 42]]
  ∧ evalG (genArray NewGenerationOptions 1 arrayEnumSchema) (mkState [0]) =
      .ok (JSON.arr [])
  ∧ JSON.arr [] ∉ arrayEnumSchema.enum := by
  refine ⟨rfl, rfl, ?_⟩
  intro h
  simp [arrayEnumSchema, Schema.enum, Schema.flat, emptyFlat] at h

/-- C6 (amended): with a nonempty enum, every draw of the string, integer
and boolean generators, and of the number generator when multipleOf is
unset, is one of the enum values; the array and object generators, the
untyped any generator, and the number generator with multipleOf set
ignore the enum. -/
theorem C6_enum_closure (s : Schema) (st : GState) (v : JSON)
    (he : 0 < s.enum.length) :
    (evalG (genString s) st = .ok v → v ∈ s.enum)
  ∧ (evalG (genInteger s) st = .ok v → v ∈ s.enum)
  ∧ (evalG (genBoolean s) st = .ok v → v ∈ s.enum)
  ∧ (s.multipleOf = none → evalG (genNumber s) st = .ok v → v ∈ s.enum) := by
  refine ⟨?_, ?_, ?_, ?_⟩
  · intro h
    rw [evalG_eq_ok] at h
    obtain ⟨st1, h⟩ := h
    rw [genString, if_pos he] at h
    exact sampledFrom_ok_mem h
  · intro h
    rw [evalG_eq_ok] at h
    obtain ⟨st1, h⟩ := h
    cases hmo : s.multipleOf with
    | none =>
      simp only [genInteger, hmo, if_pos he] at h
      exact sampledFrom_ok_mem h
    | some mo =>
      simp only [genInteger, hmo, ne_eq] at h
      repeat' split at h
      all_goals
        first
        | exact sampledFrom_ok_mem h
        | exact absurd h (by simp [throwG])
  · intro h
    rw [evalG_eq_ok] at h
    obtain ⟨st1, h⟩ := h
    rw [genBoolean, if_pos he] at h
    exact sampledFrom_ok_mem h
  · intro hmo h
    rw [evalG_eq_ok] at h
    obtain ⟨st1, h⟩ := h
    simp only [genNumber, hmo, if_pos he] at h
    exact sampledFrom_ok_mem h

/-- Witness for C6: the enum element really is drawn. -/
theorem C6_witness : JSON.str "x" ∈ strEnumSchema.enum :=
  (C6_enum_closure strEnumSchema (mkState [0]) (JSON.str "x") (by decide)).1 rfl

/-! ### C1 -/

/-- C1: corrected.  With multipleOf set the bounds are not respected: on
the integer node minimum 5, maximum 7, multipleOf 3, the generator draws
3, which is below the minimum. -/
theorem C1_counterexample :
    intMult35Schema.min = some 5 ∧ intMult35Schema.enum = []
  ∧ evalG (genInteger intMult35Schema) (mkState [0]) = .ok (JSON.int 3)
  ∧ ¬ ((5 : Int) ≤ 3) :=
  ⟨rfl, rfl, rfl, by decide⟩

/-- C1 (amended): with multipleOf unset (or zero) and an empty enum,
every non-null integer draw lies within the effective bounds (the int64
truncation of the float minimum and maximum, shifted by one when the
exclusive flag is set, which agree with the stated bounds whenever those
are integral), and every non-null number draw lies within the effective
float bounds, which are the stated bounds, advanced strictly into the
interior when an exclusive flag is set; null draws additionally occur
only through the nullable wrapper. -/
theorem C1_bounds (s : Schema) (st : GState) (v : JSON)
    (hmo : s.multipleOf = none ∨ s.multipleOf = some 0)
    (henum : s.enum = []) :
    (evalG (genInteger s) st = .ok v →
      v = JSON.null ∨ ∃ n : Int, v = JSON.int n ∧
        intLowerBound s ≤ n ∧ n ≤ intUpperBound s)
  ∧ (evalG (genNumber s) st = .ok v →
      v = JSON.null ∨ ∃ q : Rat, v = JSON.num q ∧
        numLowerBound s ≤ q ∧ q ≤ numUpperBound s)
  ∧ (∀ m : Rat, s.min = some m →
      m ≤ numLowerBound s ∧ (s.exclusiveMin = true → m < numLowerBound s))
  ∧ (∀ m : Rat, s.max = some m →
      numUpperBound s ≤ m ∧ (s.exclusiveMax = true → numUpperBound s < m))
  ∧ (s.exclusiveMin = false → ∀ mi : Int, s.min = some ((mi : Int) : Rat) →
      mi ≤ intLowerBound s)
  ∧ (s.exclusiveMin = true → ∀ mi : Int, s.min = some ((mi : Int) : Rat) →
      mi + 1 ≤ intLowerBound s)
  ∧ (s.exclusiveMax = false → ∀ mi : Int, s.max = some ((mi : Int) : Rat) →
      intUpperBound s ≤ mi)
  ∧ (s.exclusiveMax = true → ∀ mi : Int, s.max = some ((mi : Int) : Rat) →
      intUpperBound s ≤ mi - 1) := by
  have hstep : (0 : Rat) < floatStep := by
    unfold floatStep
    positivity
  refine ⟨?_, ?_, ?_, ?_, ?_, ?_, ?_, ?_⟩
  · intro h
    rw [evalG_eq_ok] at h
    obtain ⟨st1, h⟩ := h
    exact genInteger_plain_ok hmo henum h
  · intro h
    rw [evalG_eq_ok] at h
    obtain ⟨st1, h⟩ := h
    exact genNumber_plain_ok hmo henum h
  · intro m hm
    simp only [numLowerBound, hm, nextafterUp]
    constructor
    · split
      · linarith
      · exact le_refl m
    · intro hex
      rw [if_pos hex]
      linarith
  · intro m hm
    simp only [numUpperBound, hm, nextafterDown]
    constructor
    · split
      · linarith
      · exact le_refl m
    · intro hex
      rw [if_pos hex]
      linarith
  · intro hex mi hm
    simp only [intLowerBound, hm, ratTrunc_intCast, hex, Bool.false_eq_true, if_false]
    split
    · rename_i hcl
      omega
    · exact le_refl _
  · intro hex mi hm
    simp only [intLowerBound, hm, ratTrunc_intCast, hex, if_true]
    split
    · rename_i hcl
      omega
    · exact le_refl _
  · intro hex mi hm
    simp only [intUpperBound, hm, ratTrunc_intCast, hex, Bool.false_eq_true, if_false]
    split
    · rename_i hcl
      omega
    · exact le_refl _
  · intro hex mi hm
    simp only [intUpperBound, hm, ratTrunc_intCast, hex, if_true]
    split
    · rename_i hcl
      omega
    · exact le_refl _

/-- Witness for C1: a 5-7 integer node and number node both drawing 5. -/
theorem C1_witness :
    (JSON.int 5 = JSON.null ∨ ∃ n : Int, JSON.int 5 = JSON.int n ∧
      intLowerBound intPlainSchema ≤ n ∧ n ≤ intUpperBound intPlainSchema)
  ∧ (JSON.num 5 = JSON.null ∨ ∃ q : Rat, JSON.num 5 = JSON.num q ∧
      numLowerBound numPlainSchema ≤ q ∧ q ≤ numUpperBound numPlainSchema) :=
  ⟨(C1_bounds intPlainSchema (mkState [0]) (JSON.int 5) (Or.inl rfl) rfl).1 rfl,
   (C1_bounds numPlainSchema (mkState [0]) (JSON.num 5) (Or.inl rfl) rfl).2.1 (by
     rw [evalG_eq_ok]
     exact ⟨mkState [], by
       simpa using genNumber_plain_hits_lo (s := numPlainSchema) rfl rfl rfl (by decide)⟩)⟩

/-! ### C3 -/

/-- C3: corrected.  The quotient range uses Go division, which truncates
toward zero, not the floor of the claim: on the node minimum -5, maximum
6, multipleOf 3, the floor range would contain -2 (making -6 a possible
product), but the generator can never return -6; -3 (from the truncated
quotient -1) is drawn instead. -/
theorem C3_counterexample :
    intLowerBound intMultNegSchema = -5
  ∧ Int.fdiv (-5) 3 = -2 ∧ ((-5 : Int)).tdiv 3 = -1
  ∧ (∀ st : GState, evalG (genInteger intMultNegSchema) st ≠ .ok (JSON.int (-6)))
  ∧ evalG (genInteger intMultNegSchema) (mkState [0]) = .ok (JSON.int (-3)) := by
  refine ⟨rfl, by decide, by decide, ?_, rfl⟩
  intro st h
  rw [evalG_eq_ok] at h
  obtain ⟨st1, h⟩ := h
  obtain ⟨k, hk1, hk2, hv⟩ :=
    genInteger_mult_char (s := intMultNegSchema) rfl (by norm_num) (by decide) rfl rfl h
  rw [show (intLowerBound intMultNegSchema).tdiv (ratTrunc 3) = -1 from by decide] at hk1
  rw [show (intUpperBound intMultNegSchema).tdiv (ratTrunc 3) = 2 from by decide] at hk2
  rw [show ratTrunc 3 = 3 from by decide] at hv
  injection hv with hv2
  omega

/-- C3 (amended): for an integer node with nonzero multipleOf m whose
int64 conversion is nonzero (and empty enum, nullable unset), the
generator draws k uniformly from the quotient range computed with Go
truncating division [tdiv lo m, tdiv hi m] and returns k times the
converted multiplier — every draw is such a product, every such product
is reachable — and it fails eagerly with the multipleOf configuration
panic when that truncated quotient range is empty. -/
theorem C3_truncated_quotient (s : Schema) (st : GState) (mo : Rat)
    (hmo : s.multipleOf = some mo) (h0 : ¬ mo = 0) (hmz : ¬ ratTrunc mo = 0)
    (henum : s.enum = []) (hnul : s.nullable = false) :
    ((intUpperBound s).tdiv (ratTrunc mo) < (intLowerBound s).tdiv (ratTrunc mo) →
      evalG (genInteger s) st = .error .multipleOfTooLarge)
  ∧ (∀ v, evalG (genInteger s) st = .ok v →
      ∃ k, (intLowerBound s).tdiv (ratTrunc mo) ≤ k ∧
        k ≤ (intUpperBound s).tdiv (ratTrunc mo) ∧ v = JSON.int (k * ratTrunc mo))
  ∧ (∀ k, (intLowerBound s).tdiv (ratTrunc mo) ≤ k →
      k ≤ (intUpperBound s).tdiv (ratTrunc mo) →
      evalG (genInteger s)
        (mkState [(k - (intLowerBound s).tdiv (ratTrunc mo)).toNat]) =
        .ok (JSON.int (k * ratTrunc mo))) := by
  refine ⟨?_, ?_, ?_⟩
  · intro hlt
    rw [evalG_eq_error]
    exact genInteger_mult_err st hmo h0 hmz hlt
  · intro v h
    rw [evalG_eq_ok] at h
    obtain ⟨st1, h⟩ := h
    exact genInteger_mult_char hmo h0 hmz henum hnul h
  · intro k hk1 hk2
    rw [evalG_eq_ok]
    exact ⟨_, genInteger_mult_hits hmo h0 hmz henum hnul hk1 hk2⟩

/-- Witness for C3: on the 5-7 node with multipleOf 3 the values 3 and 6
(quotients 1 and 2) are exactly the reachable products. -/
theorem C3_witness :
    evalG (genInteger intMult35Schema)
      (mkState [((2 : Int) - (intLowerBound intMult35Schema).tdiv (ratTrunc 3)).toNat]) =
      .ok (JSON.int (2 * ratTrunc 3)) :=
  (C3_truncated_quotient intMult35Schema (mkState []) 3 rfl (by norm_num) (by decide)
    rfl rfl).2.2 2 (by decide) (by decide)

/-- A bound key is a key. -/
theorem mem_keys_of_lookup {α : Type} {k : String} {b : α} :
    ∀ {m : List (String × α)}, List.lookup k m = some b → k ∈ m.map Prod.fst := by
  intro m
  induction m with
  | nil => intro h; exact absurd h (by simp [List.lookup])
  | cons p rest ih =>
    intro h
    rw [List.lookup] at h
    by_cases hc : k = p.1
    · exact List.mem_cons.mpr (Or.inl hc)
    · rw [show (k == p.1) = false from beq_eq_false_iff_ne.mpr hc] at h
      exact List.mem_cons.mpr (Or.inr (ih h))

/-! ### C5 -/

/-- object node requiring a name that has no declared property, with
additional properties forbidden. -/
def reqNoPropsSchema : Schema :=
  .mk { emptyFlat with
        type := some ["object"]
        required := ["a"]
        addPropsHas := some false } none [] none [] [] []

/-- object node requiring the declared boolean property a, additional
properties forbidden. -/
def reqPropSchema : Schema :=
  .mk { emptyFlat with
        type := some ["object"]
        required := ["a"]
        addPropsHas := some false } none [("a", some (typeStub "boolean"))] none [] [] []

/-- C5: corrected.  A required name with no entry in properties is
silently dropped: the node requiring a (with no properties and no
additional properties) draws the empty object, which does not contain the
key a. -/
theorem C5_counterexample :
    reqNoPropsSchema.required = ["a"]
  ∧ evalG (genObject NewGenerationOptions 1 reqNoPropsSchema) (mkState []) =
      .ok (JSON.obj [])
  ∧ ∀ w : JSON, ("a", w) ∉ ([] : List (String × JSON)) := by
  refine ⟨rfl, rfl, ?_⟩
  intro w hw
  exact absurd hw (List.not_mem_nil _)

/-- C5 (amended): every object draw contains every name that is both in
required and declared in properties; required names without a properties
entry are dropped. -/
theorem C5_required_present (opts : GenerationOptions) (fuel : Nat) (s : Schema)
    (st : GState) (fields : List (String × JSON)) (name : String)
    (hok : evalG (genObject opts fuel s) st = .ok (JSON.obj fields))
    (hreq : name ∈ s.required) (hprop : name ∈ s.properties.map Prod.fst) :
    name ∈ fields.map Prod.fst := by
  rw [evalG_eq_ok] at hok
  obtain ⟨st1, hok⟩ := hok
  cases fuel with
  | zero => exact absurd hok (by simp [genObject, runCall, throwG])
  | succ fuel =>
    obtain ⟨allProps, fields2, hv, hnd, hkeys, hreq2, -, -⟩ := genObject_ok_char hok
    injection hv with hfe
    have hcont : contains s.required name = true := by
      simp only [contains, List.any_eq_true]
      exact ⟨name, hreq, by simp⟩
    have hlook := hreq2 name hcont hprop
    rw [hfe, hkeys]
    exact mem_keys_of_lookup hlook

/-- Witness for C5: the required declared property a is present. -/
theorem C5_witness :
    "a" ∈ ([("a", JSON.bool false)] : List (String × JSON)).map Prod.fst :=
  C5_required_present NewGenerationOptions 2 reqPropSchema (mkState [0])
    [("a", JSON.bool false)] "a" rfl (by decide) (by decide)

/-! ### C2 -/

/-- A nullable integer node. -/
def nullableIntSchema : Schema :=
  .mk { emptyFlat with
        type := some ["integer"]
        nullable := true } none [] none [] [] []

/-- C2: corrected.  The claim has it backwards for the two cases it
singles out: a non-nullable untyped schema, dispatched to the any
generator, CAN draw null (the any generator offers the null literal
unconditionally). -/
theorem C2_counterexample :
    emptySchema.nullable = false
  ∧ emptySchema.enum = []
  ∧ evalG (GenFromSchema NewGenerationOptions 3 (some emptySchema)) (mkState [6]) =
      .ok JSON.null :=
  ⟨rfl, rfl, rfl⟩

/-- C2 (amended): a nullable integer node (empty enum, no multipleOf) can
draw null through the nullable wrapper, and a non-nullable integer node
whose enum lacks null never draws null; but an object node never draws
null even when nullable (genObject has no nullable wrapper), and an
untyped schema dispatched to the any generator can draw null regardless
of nullable. -/
theorem C2_null_draws (s : Schema) (st : GState) (v : JSON)
    (opts : GenerationOptions) (fuel : Nat) :
    (s.nullable = true → s.enum = [] → s.multipleOf = none →
      evalG (genInteger s) (mkState [1]) = .ok JSON.null)
  ∧ (evalG (genObject opts fuel s) st = .ok v → v ≠ JSON.null)
  ∧ (s.nullable = false → JSON.null ∉ s.enum →
      evalG (genInteger s) st = .ok v → v ≠ JSON.null)
  ∧ evalG (GenFromSchema NewGenerationOptions 3 (some emptySchema)) (mkState [6]) =
      .ok JSON.null := by
  refine ⟨?_, ?_, ?_, rfl⟩
  · intro hn he hmo
    rw [evalG_eq_ok]
    exact ⟨_, genInteger_nullable_null hn he hmo⟩
  · intro h
    rw [evalG_eq_ok] at h
    obtain ⟨st1, h⟩ := h
    cases fuel with
    | zero => exact absurd h (by simp [genObject, runCall, throwG])
    | succ fuel =>
      obtain ⟨allProps, fields, hv, -⟩ := genObject_ok_char h
      rw [hv]
      intro hc
      exact JSON.noConfusion hc
  · intro hn he h
    rw [evalG_eq_ok] at h
    obtain ⟨st1, h⟩ := h
    exact genInteger_not_null hn he h

/-- Witness for C2: the nullable integer node draws null; the empty
object draw of an object node is not null. -/
theorem C2_witness :
    evalG (genInteger nullableIntSchema) (mkState [1]) = .ok JSON.null
  ∧ JSON.obj [] ≠ JSON.null :=
  ⟨(C2_null_draws nullableIntSchema (mkState []) JSON.null NewGenerationOptions 0).1
      rfl rfl rfl,
   (C2_null_draws reqNoPropsSchema (mkState []) (JSON.obj []) NewGenerationOptions 1).2.1
      rfl⟩

/-! ### C4 -/

/-- The merge test as the claim words it: only an actual JSON object
merges; every other value - null included - is a non-object.  (Written
from the claim for comparison with the code, whose json.Unmarshal accepts
null.) -/
def unmarshalMapClaim : JSON → Option (List (String × JSON))
  | .obj fields => some fields
  | _ => none

/-- The anyOf merge loop as the claim words it. -/
def anyOfClaimLoop (gen : Nat → GenM JSON) :
    List Nat → List (String × JSON) → GenM JSON
  | [], merged => pureG (JSON.obj merged)
  | idx :: rest, merged =>
    bindG (gen idx) fun val =>
    match unmarshalMapClaim val with
    | some submap => anyOfClaimLoop gen rest (mergeMap merged submap)
    | none => pureG val

/-- handleAnyOf as the claim describes it: identical to the code except
that a drawn null is a non-object and is returned immediately. -/
def handleAnyOfClaim (opts : GenerationOptions) (fuel : Nat) (s : Schema) : GenM JSON :=
  match fuel with
  | 0 => throwG .outOfFuel
  | fuel + 1 =>
    bindG (intRange 1 (s.anyOf.length : Int)) fun numToSatisfy =>
    bindG (sliceOfNDistinct (sampledFrom (List.range s.anyOf.length))
      numToSatisfy numToSatisfy (fun i => i)) fun selectedIndices =>
    match selectedIndices with
    | [i] => runCall fuel (.fromSchema (childOpts opts) (s.anyOf.getD i none))
    | _ =>
      anyOfClaimLoop
        (fun idx => runCall fuel (.fromSchema (childOpts opts) (s.anyOf.getD idx none)))
        selectedIndices []

/-- object node with no properties and additional properties forbidden:
it draws exactly the empty object. -/
def emptyObjSchema : Schema :=
  .mk { emptyFlat with
        type := some ["object"]
        addPropsHas := some false } none [] none [] [] []

/-- anyOf of the empty-object node and a nullable integer node. -/
def anyOfNullSchema : Schema :=
  .mk emptyFlat none [] none [] [some emptyObjSchema, some nullableIntSchema] []

/-- C4: corrected.  When a selected branch draws null, the code merges it
as an empty map (json.Unmarshal accepts the null literal) instead of
returning it immediately as the claim requires for a non-object: on the
anyOf node over the empty-object branch and the nullable-integer branch,
with a tape selecting both branches and drawing null from the second, the
code returns the merged empty object while the claim-described procedure
returns null. -/
theorem C4_counterexample :
    evalG (handleAnyOf NewGenerationOptions 3 anyOfNullSchema) (mkState [1, 0, 0, 1, 1]) =
      .ok (JSON.obj [])
  ∧ evalG (handleAnyOfClaim NewGenerationOptions 3 anyOfNullSchema) (mkState [1, 0, 0, 1, 1]) =
      .ok JSON.null
  ∧ JSON.obj [] ≠ JSON.null := by
  refine ⟨rfl, rfl, ?_⟩
  intro hc
  exact JSON.noConfusion hc

/-- Every value of the anyOf merge loop is an object or a branch draw. -/
theorem anyOfMergeLoop_ok {gen : Nat → GenM JSON} :
    ∀ {l : List Nat} {merged : List (String × JSON)} {st st1 : GState} {v : JSON},
      anyOfMergeLoop gen l merged st = .ok (v, st1) →
      (∃ fields, v = JSON.obj fields) ∨
      (∃ j ∈ l, ∃ st2 st3, gen j st2 = .ok (v, st3)) := by
  intro l
  induction l with
  | nil =>
    intro merged st st1 v h
    simp only [anyOfMergeLoop, pureG, Except.ok.injEq, Prod.mk.injEq] at h
    exact Or.inl ⟨merged, h.1.symm⟩
  | cons idx rest ih =>
    intro merged st st1 v h
    simp only [anyOfMergeLoop] at h
    rw [bindG_eq_ok] at h
    obtain ⟨val, st2, hval, h2⟩ := h
    cases hum : unmarshalMap val with
    | some submap =>
      rw [hum] at h2
      rcases ih (show anyOfMergeLoop gen rest (mergeMap merged submap) st2 =
          .ok (v, st1) from h2) with hobj | ⟨j, hj, st3, st4, hdraw⟩
      · exact Or.inl hobj
      · exact Or.inr ⟨j, List.mem_cons_of_mem _ hj, st3, st4, hdraw⟩
    | none =>
      rw [hum] at h2
      have h3 : val = v ∧ st2 = st1 := by simpa [pureG] using h2
      exact Or.inr ⟨idx, List.mem_cons_self _ _, st, st2, h3.1 ▸ hval⟩

/-- C4 (amended): the anyOf handler selects a random subset of size
1 ≤ k ≤ |anyOf|; every draw is either a JSON object (in particular any
later-wins merge of the selected branches, a drawn null merging as an
empty map) or a value drawn directly from one of the branch generators
(the k = 1 case, and the first non-object, non-null branch value, which
is returned immediately). -/
theorem C4_anyOf_draws (opts : GenerationOptions) (fuel : Nat) (s : Schema)
    (st : GState) (v : JSON)
    (h : evalG (handleAnyOf opts (fuel + 1) s) st = .ok v) :
    (∃ fields, v = JSON.obj fields)
  ∨ (∃ i st2 st3, i < s.anyOf.length ∧
      GenFromSchema (childOpts opts) fuel (s.anyOf.getD i none) st2 = .ok (v, st3)) := by
  rw [evalG_eq_ok] at h
  obtain ⟨st1, h⟩ := h
  rw [handleAnyOf] at h
  simp only [runCall] at h
  rw [bindG_eq_ok] at h
  obtain ⟨numToSatisfy, stA, hnum, h⟩ := h
  rw [bindG_eq_ok] at h
  obtain ⟨selected, stB, hsel, h⟩ := h
  have hselmem : ∀ i ∈ selected, i < s.anyOf.length := by
    intro i hi
    exact List.mem_range.mp (sliceOfNDistinct_ok_mem
      (P := fun i => i ∈ List.range s.anyOf.length)
      (fun st2 x st3 hx => sampledFrom_ok_mem hx) hsel i hi)
  rcases selected with _ | ⟨i, rest⟩
  · rcases anyOfMergeLoop_ok h with hobj | ⟨j, hj, -⟩
    · exact Or.inl hobj
    · exact absurd hj (List.not_mem_nil _)
  · rcases rest with _ | ⟨i2, rest2⟩
    · exact Or.inr ⟨i, stB, st1, hselmem i (List.mem_singleton.mpr rfl), h⟩
    · rcases anyOfMergeLoop_ok h with hobj | ⟨j, hj, st3, st4, hdraw⟩
      · exact Or.inl hobj
      · exact Or.inr ⟨j, st3, st4, hselmem j hj, hdraw⟩

/-- Witness for C4: the merged draw of the two-branch node is an object. -/
theorem C4_witness :
    (∃ fields, JSON.obj [] = JSON.obj fields)
  ∨ (∃ i st2 st3, i < anyOfNullSchema.anyOf.length ∧
      GenFromSchema (childOpts NewGenerationOptions) 2 (anyOfNullSchema.anyOf.getD i none)
        st2 = .ok (JSON.obj [], st3)) :=
  C4_anyOf_draws NewGenerationOptions 2 anyOfNullSchema (mkState [1, 0, 0, 1, 1])
    (JSON.obj []) rfl

/-! ### C10 -/

/-- A sub-schema with no type information and no compositors: the
dispatcher sends it to the any generator. -/
def Untyped : Option Schema → Prop
  | none => True
  | some sc => sc.type = none ∧ sc.allOf = [] ∧ sc.anyOf = [] ∧ sc.oneOf = []

/-- An untyped sub-schema dispatches to the any generator. -/
theorem fromSchema_untyped {opts : GenerationOptions} {s : Option Schema}
    (fuel : Nat) (st : GState) (h : Untyped s) :
    runCall (fuel + 1) (.fromSchema opts s) st = runCall fuel (.anyGen opts) st := by
  cases s with
  | none => simp [runCall]
  | some sc =>
    obtain ⟨ht, hall, hany, hone⟩ := h
    simp [runCall, ht, hall, hany, hone]

/-- Past the depth limit the any generator degrades to a plain string
draw. -/
theorem genAny_degrades {opts : GenerationOptions} (h : opts.MaxDepth ≤ opts.depth)
    (fuel : Nat) (st : GState) :
    runCall (fuel + 1) (.anyGen opts) st = genString (typeStub "string") st := by
  simp [runCall, if_pos h]

/-- The string stub generator only produces JSON strings. -/
theorem genString_stub_str {st st1 : GState} {v : JSON}
    (h : genString (typeStub "string") st = .ok (v, st1)) :
    ∃ str, v = JSON.str str := by
  rw [genString] at h
  rw [if_neg (by simp [typeStub, Schema.enum, Schema.flat, emptyFlat])] at h
  rw [bindG_eq_ok] at h
  obtain ⟨str, st2, -, h2⟩ := h
  rw [wrapNullable] at h2
  rw [if_neg (by simp [typeStub, Schema.nullable, Schema.flat, emptyFlat])] at h2
  simp only [pureG, Except.ok.injEq, Prod.mk.injEq] at h2
  exact ⟨str, h2.1.symm⟩

/-- Below the top level (child options: depth at least one, max depth
reset to zero), an untyped sub-schema immediately degrades to a string. -/
theorem child_untyped_str {opts : GenerationOptions} {ps : Option Schema} {fuel : Nat}
    {st st1 : GState} {v : JSON} (hd : 0 ≤ opts.depth) (hu : Untyped ps)
    (h : runCall fuel (.fromSchema (childOpts opts) ps) st = .ok (v, st1)) :
    ∃ str, v = JSON.str str := by
  cases fuel with
  | zero => exact absurd h (by simp [runCall, throwG])
  | succ fuel =>
    rw [fromSchema_untyped fuel st hu] at h
    cases fuel with
    | zero => exact absurd h (by simp [runCall, throwG])
    | succ fuel =>
      rw [genAny_degrades (by simp only [childOpts]; omega) fuel st] at h
      exact genString_stub_str h

/-- An object-typed sub-schema drawn under child options (additional
properties budget reset to zero) only produces objects whose keys are
declared property names. -/
theorem child_object_keys {opts : GenerationOptions} {sub : Schema} {fuel : Nat}
    {st st1 : GState} {w : JSON}
    (ht : sub.type = some ["object"]) (hall : sub.allOf = []) (hany : sub.anyOf = [])
    (hone : sub.oneOf = [])
    (h : runCall fuel (.fromSchema (childOpts opts) (some sub)) st = .ok (w, st1)) :
    ∀ fields, w = JSON.obj fields →
      ∀ k ∈ fields.map Prod.fst, k ∈ sub.properties.map Prod.fst := by
  cases fuel with
  | zero => exact absurd h (by simp [runCall, throwG])
  | succ fuel =>
    have hdis : runCall (fuel + 1) (.fromSchema (childOpts opts) (some sub)) st =
        runCall fuel (.object (childOpts opts) sub) st := by
      simp [runCall, ht, hall, hany, hone]
    rw [hdis] at h
    cases fuel with
    | zero => exact absurd h (by simp [runCall, throwG])
    | succ fuel =>
      obtain ⟨allProps, fields2, hv, -, hkeys, -, hsub, -⟩ := genObject_ok_char h
      intro fields hw k hk
      have hfe : fields = fields2 := by
        have h2 := hw.symm.trans hv
        injection h2
      rw [hfe, hkeys] at hk
      exact hsub rfl k hk

/-- Every successful array draw whose element generator satisfies a
property satisfies it elementwise (or is the nullable literal). -/
theorem genArray_ok_elems {opts : GenerationOptions} {fuel : Nat} {s : Schema}
    {st st1 : GState} {v : JSON} {P : JSON → Prop}
    (hP : ∀ st2 st3 w, runCall fuel (.fromSchema (childOpts opts) s.items) st2 =
      .ok (w, st3) → P w)
    (h : runCall (fuel + 1) (.array opts s) st = .ok (v, st1)) :
    v = JSON.null ∨ ∃ l, v = JSON.arr l ∧ ∀ x ∈ l, P x := by
  simp only [runCall] at h
  rcases wrapNullable_ok h with hnull | ⟨st2, h2⟩
  · exact Or.inl hnull
  · rw [bindG_eq_ok] at h2
    obtain ⟨arr, st3, harr, hp⟩ := h2
    simp only [pureG, Except.ok.injEq, Prod.mk.injEq] at hp
    refine Or.inr ⟨arr, hp.1.symm, ?_⟩
    split at harr
    · exact sliceOfNDistinct_ok_mem (fun st4 x st5 hx => hP _ _ _ hx) harr
    · simp only [sliceOfN] at harr
      rw [bindG_eq_ok] at harr
      obtain ⟨n, st4, -, hlist⟩ := harr
      exact listOfLen_ok_mem (fun st5 x st6 hx => hP _ _ _ hx) hlist

/-- When every branch generator only draws strings, the anyOf merge loop
returns the first drawn string at once. -/
theorem anyOfMergeLoop_all_str {gen : Nat → GenM JSON}
    (hg : ∀ j st2 w st3, gen j st2 = .ok (w, st3) → ∃ str, w = JSON.str str) :
    ∀ {l : List Nat} {merged : List (String × JSON)} {st st1 : GState} {v : JSON},
      l ≠ [] → anyOfMergeLoop gen l merged st = .ok (v, st1) →
      ∃ str, v = JSON.str str := by
  intro l merged st st1 v hne h
  match l, hne with
  | idx :: rest, _ =>
    simp only [anyOfMergeLoop] at h
    rw [bindG_eq_ok] at h
    obtain ⟨val, st2, hval, h2⟩ := h
    obtain ⟨str, rfl⟩ := hg idx st val st2 hval
    simp only [unmarshalMap, pureG, Except.ok.injEq, Prod.mk.injEq] at h2
    exact ⟨str, h2.1.symm⟩

/-- An array schema whose item schema is untyped and has max_items 0. -/
def arrayUntypedSchema : Schema :=
  .mk { emptyFlat with
        type := some ["array"]
        maxItems := some 0 } (some emptySchema) [] none [] [] []

/-- C10: confirmed.  Every recursive descent (array items, object
property values, anyOf branches, oneOf branches) runs under the fresh
child options record carrying only depth+1, with MaxDepth and
AdditionalPropertiesMax at their zero values; consequently an untyped
sub-schema below the top level immediately degrades to a string at each
of those sites, and a nested object generator adds no ad-hoc
additional-property keys (its keys are all declared property names),
regardless of the configured options. -/
theorem C10_child_options_reset (opts : GenerationOptions) (s sub : Schema)
    (psub : Option Schema) (st : GState) (fuel : Nat) (v : JSON) (name : String)
    (hd : 0 ≤ opts.depth) :
    childOpts opts = { depth := opts.depth + 1, MaxDepth := 0, AdditionalPropertiesMax := 0 }
  ∧ (Untyped s.items →
      evalG (genArray opts (fuel + 1) s) st = .ok v →
      v = JSON.null ∨ ∃ l, v = JSON.arr l ∧ ∀ x ∈ l, ∃ str, x = JSON.str str)
  ∧ (s.items = some sub → sub.type = some ["object"] → sub.allOf = [] →
      sub.anyOf = [] → sub.oneOf = [] →
      evalG (genArray opts (fuel + 1) s) st = .ok v →
      v = JSON.null ∨ ∃ l, v = JSON.arr l ∧ ∀ x ∈ l, ∀ fields, x = JSON.obj fields →
        ∀ k ∈ fields.map Prod.fst, k ∈ sub.properties.map Prod.fst)
  ∧ ((∀ subO ∈ s.oneOf, Untyped subO) →
      evalG (handleOneOf opts (fuel + 1) s) st = .ok v → ∃ str, v = JSON.str str)
  ∧ ((∀ subO ∈ s.anyOf, Untyped subO) →
      evalG (handleAnyOf opts (fuel + 1) s) st = .ok v → ∃ str, v = JSON.str str)
  ∧ (name ∈ s.required → List.lookup name s.properties = some psub → Untyped psub →
      evalG (genObject opts (fuel + 1) s) st = .ok v →
      ∀ fields, v = JSON.obj fields → ∀ w, (name, w) ∈ fields →
        ∃ str, w = JSON.str str) := by
  refine ⟨rfl, ?_, ?_, ?_, ?_, ?_⟩
  · intro hu h
    rw [evalG_eq_ok] at h
    obtain ⟨st1, h⟩ := h
    exact genArray_ok_elems (fun st2 st3 w hw => child_untyped_str hd hu hw) h
  · intro hitem ht hall hany hone h
    rw [evalG_eq_ok] at h
    obtain ⟨st1, h⟩ := h
    refine genArray_ok_elems ?_ h
    intro st2 st3 w hw
    rw [hitem] at hw
    exact child_object_keys ht hall hany hone hw
  · intro hu h
    rw [evalG_eq_ok] at h
    obtain ⟨st1, h⟩ := h
    simp only [handleOneOf, runCall] at h
    obtain ⟨g, hg, hrun⟩ := oneOfG_ok h
    obtain ⟨subO, hsubO, rfl⟩ := List.mem_map.mp hg
    exact child_untyped_str hd (hu subO hsubO) hrun
  · intro hu h
    rw [evalG_eq_ok] at h
    obtain ⟨st1, h⟩ := h
    simp only [handleAnyOf, runCall] at h
    rw [bindG_eq_ok] at h
    obtain ⟨numToSatisfy, stA, hnum, h⟩ := h
    rw [bindG_eq_ok] at h
    obtain ⟨selected, stB, hsel, h⟩ := h
    have hnum1 : 1 ≤ numToSatisfy := (intRange_ok hnum).1
    have hlen : selected.length = numToSatisfy.toNat :=
      sliceOfNDistinct_ok_length (by omega) hsel
    have hstr : ∀ j st2 w st3,
        runCall fuel (.fromSchema (childOpts opts) (s.anyOf.getD j none)) st2 =
          .ok (w, st3) → ∃ str, w = JSON.str str := by
      intro j st2 w st3 hw
      by_cases hj : j < s.anyOf.length
      · refine child_untyped_str hd (hu _ ?_) hw
        rw [List.getD_eq_getElem _ _ hj]
        exact List.getElem_mem hj
      · rw [List.getD_eq_default _ _ (by omega)] at hw
        exact child_untyped_str hd (show Untyped none from trivial) hw
    rcases selected with _ | ⟨i, rest⟩
    · simp at hlen
      omega
    · rcases rest with _ | ⟨i2, rest2⟩
      · exact hstr i stB v st1 h
      · exact anyOfMergeLoop_all_str hstr (by simp) h
  · intro hreq hlook hu h fields hv w hw
    rw [evalG_eq_ok] at h
    obtain ⟨st1, h⟩ := h
    obtain ⟨allProps, fields2, hv2, -, -, hreq2, -, hpairs⟩ := genObject_ok_char h
    have hfe : fields = fields2 := by
      have h2 := hv.symm.trans hv2
      injection h2
    have hcont : contains s.required name = true := by
      simp only [contains, List.any_eq_true]
      exact ⟨name, hreq, by simp⟩
    have hlookAll : List.lookup name allProps = some psub := by
      rw [hreq2 name hcont (mem_keys_of_lookup hlook), hlook]
      rfl
    obtain ⟨ps, st2, st3, hps, hdraw⟩ := hpairs (name, w) (hfe ▸ hw)
    rw [hps] at hlookAll
    injection hlookAll with hpse
    rw [hpse] at hdraw
    exact child_untyped_str hd hu hdraw

/-- Witness for C10: an array of untyped items draws an array of strings
(here the empty one). -/
theorem C10_witness :
    JSON.arr [] = JSON.null ∨
      ∃ l, JSON.arr [] = JSON.arr l ∧ ∀ x ∈ l, ∃ str, x = JSON.str str :=
  (C10_child_options_reset NewGenerationOptions arrayUntypedSchema emptySchema none
    (mkState [0]) 0 (JSON.arr []) "a" (by decide)).2.1 ⟨rfl, rfl, rfl, rfl⟩ rfl

end SpecSmash
